import Mathlib

/-!
Verification development for the pattern-based text transformation engine
(`src/patterns`): the rule parser, the fast transformation engine with its
change log, the SequenceMatcher-based alignment engine, the merge view
builder, the range merger and the guarded intraline refiner.

Texts are embedded as `List Char`; character offsets are `Nat`.
Regular-expression matching itself is abstracted: a compiled rule is
modelled by the (ordered, non-overlapping) match list it produces on a
given text, exactly the data `re.finditer` hands to the engine loops.
-/

namespace Ashmolean

/-- Python slice `s[i:j]` on a list (indices clamp; `j ≤ i` gives `[]`). -/
def pySlice (s : List Char) (i j : Nat) : List Char :=
  (s.drop i).take (j - i)

/-- Python slice `s[i:]`. -/
def pySliceFrom (s : List Char) (i : Nat) : List Char :=
  s.drop i

theorem pySlice_split (s : List Char) (i k j : Nat) (h1 : i ≤ k) (h2 : k ≤ j) :
    pySlice s i j = pySlice s i k ++ pySlice s k j := by
  unfold pySlice
  have hd : s.drop k = (s.drop i).drop (k - i) := by
    rw [List.drop_drop]
    congr 1
    omega
  rw [hd, ← List.take_add]
  congr 1
  omega

theorem pySlice_cat_drop (s : List Char) (i k : Nat) (h1 : i ≤ k) :
    pySlice s i k ++ s.drop k = s.drop i := by
  unfold pySlice
  have hd : s.drop k = (s.drop i).drop (k - i) := by
    rw [List.drop_drop]
    congr 1
    omega
  rw [hd, List.take_append_drop]

theorem pySlice_length (s : List Char) (i j : Nat) (h1 : i ≤ j)
    (h2 : j ≤ s.length) : (pySlice s i j).length = j - i := by
  unfold pySlice
  rw [List.length_take, List.length_drop]
  omega

theorem pySlice_empty (s : List Char) (i j : Nat) (h : j ≤ i) :
    pySlice s i j = [] := by
  unfold pySlice
  have : j - i = 0 := by omega
  simp [this]

/- ------------------------------------------------------------------
   Range Merger: `merge_ranges` from `interactive_regex.py` (l. 448-461)
   and `OLD2_regex_apply_gui.py` (l. 365-378).
   ------------------------------------------------------------------ -/

/-- The accumulation loop of `merge_ranges`: `cur_s, cur_e` is the span
being grown; a span whose start is `≤ cur_e` is coalesced, otherwise the
current span is emitted and the new one becomes current. -/
def mergeLoop (curS curE : Nat) : List (Nat × Nat) → List (Nat × Nat)
  | [] => [(curS, curE)]
  | (s, e) :: rest =>
    if s ≤ curE then mergeLoop curS (max curE e) rest
    else (curS, curE) :: mergeLoop s e rest

/-- `merge_ranges(ranges)`: empty input gives `[]`; otherwise the input is
sorted by span start (`sorted(ranges, key=lambda r: r[0])`) and folded with
the coalescing loop. -/
def merge_ranges (ranges : List (Nat × Nat)) : List (Nat × Nat) :=
  match ranges.mergeSort (fun x y => x.1 ≤ y.1) with
  | [] => []
  | (s, e) :: rest => mergeLoop s e rest

/-- Spans are well formed: start ≤ end. -/
def SpansWF (l : List (Nat × Nat)) : Prop := ∀ p ∈ l, p.1 ≤ p.2

instance (l : List (Nat × Nat)) : Decidable (SpansWF l) :=
  List.decidableBAll _ l

/-- Output discipline of the range merger: consecutive spans are strictly
separated (the next start is strictly greater than the previous end). -/
def GapChain (l : List (Nat × Nat)) : Prop :=
  List.Chain' (fun x y => x.2 < y.1) l

theorem mergeLoop_head (curS curE : Nat) (rest : List (Nat × Nat)) :
    ∃ E tail, mergeLoop curS curE rest = (curS, E) :: tail ∧ curE ≤ E := by
  induction rest generalizing curS curE with
  | nil => exact ⟨curE, [], rfl, le_refl _⟩
  | cons p rest ih =>
    obtain ⟨s, e⟩ := p
    by_cases h : s ≤ curE
    · obtain ⟨E, tail, hEq, hle⟩ := ih curS (max curE e)
      exact ⟨E, tail, by simpa [mergeLoop, h] using hEq,
        le_trans (le_max_left _ _) hle⟩
    · exact ⟨curE, mergeLoop s e rest, by simp [mergeLoop, h], le_refl _⟩

theorem mergeLoop_gapChain (rest : List (Nat × Nat)) :
    ∀ curS curE, rest.Pairwise (fun x y => x.1 ≤ y.1) →
      GapChain (mergeLoop curS curE rest) := by
  induction rest with
  | nil => intro curS curE _; simp [mergeLoop, GapChain]
  | cons p rest ih =>
    intro curS curE hp
    obtain ⟨s, e⟩ := p
    rw [List.pairwise_cons] at hp
    by_cases h : s ≤ curE
    · simpa [mergeLoop, h] using ih curS (max curE e) hp.2
    · push_neg at h
      obtain ⟨E, tail, hEq, _⟩ := mergeLoop_head s e rest
      have hchain := ih s e hp.2
      simp only [mergeLoop, if_neg (not_le.mpr h)]
      rw [hEq] at hchain ⊢
      exact List.Chain'.cons h hchain

theorem mergeLoop_wf (rest : List (Nat × Nat)) :
    ∀ curS curE, curS ≤ curE → SpansWF rest →
      SpansWF (mergeLoop curS curE rest) := by
  induction rest with
  | nil =>
    intro curS curE hcur _
    intro p hp
    simp [mergeLoop] at hp
    simp [hp, hcur]
  | cons q rest ih =>
    intro curS curE hcur hwf
    obtain ⟨s, e⟩ := q
    have hrest : SpansWF rest := fun p hp => hwf p (List.mem_cons_of_mem _ hp)
    have hse : s ≤ e := hwf (s, e) (List.mem_cons_self _ _)
    by_cases h : s ≤ curE
    · simpa [mergeLoop, h] using
        ih curS (max curE e) (le_trans hcur (le_max_left _ _)) hrest
    · intro p hp
      simp only [mergeLoop, if_neg h] at hp
      rcases List.mem_cons.mp hp with h1 | h2
      · simp [h1, hcur]
      · exact ih s e hse hrest p h2

/-- Replaying the loop on an already strictly separated list reproduces it. -/
theorem mergeLoop_of_gapChain (rest : List (Nat × Nat)) :
    ∀ curS curE, GapChain ((curS, curE) :: rest) →
      mergeLoop curS curE rest = (curS, curE) :: rest := by
  induction rest with
  | nil => intro curS curE _; rfl
  | cons p rest ih =>
    intro curS curE hchain
    obtain ⟨s, e⟩ := p
    have h1 : curE < s := List.chain'_cons.mp hchain |>.1
    have h2 : GapChain ((s, e) :: rest) := List.chain'_cons.mp hchain |>.2
    simp only [mergeLoop, if_neg (not_le.mpr h1)]
    rw [ih s e h2]

theorem merge_ranges_gapChain (S : List (Nat × Nat)) :
    GapChain (merge_ranges S) := by
  unfold merge_ranges
  have hsorted : (S.mergeSort (fun x y => x.1 ≤ y.1)).Pairwise
      (fun x y => x.1 ≤ y.1) := by
    have := @List.sorted_mergeSort (Nat × Nat)
      (fun (x y : Nat × Nat) => decide (x.1 ≤ y.1))
      (fun a b c hab hbc => by
        simp only [decide_eq_true_eq] at *; omega)
      (fun a b => by
        simp only [Bool.or_eq_true, decide_eq_true_eq]; omega) S
    exact this.imp (fun h => by simpa using h)
  cases hEq : S.mergeSort (fun x y => x.1 ≤ y.1) with
  | nil => simp [GapChain]
  | cons p rest =>
    obtain ⟨s, e⟩ := p
    rw [hEq] at hsorted
    exact mergeLoop_gapChain rest s e (List.pairwise_cons.mp hsorted).2

theorem merge_ranges_wf (S : List (Nat × Nat)) (hS : SpansWF S) :
    SpansWF (merge_ranges S) := by
  unfold merge_ranges
  have hmem : ∀ p ∈ S.mergeSort (fun x y => x.1 ≤ y.1), p.1 ≤ p.2 := by
    intro p hp
    exact hS p (List.mem_mergeSort.mp hp)
  cases hEq : S.mergeSort (fun x y => x.1 ≤ y.1) with
  | nil => intro p hp; simp at hp
  | cons p rest =>
    obtain ⟨s, e⟩ := p
    refine mergeLoop_wf rest s e ?_ ?_
    · exact hmem (s, e) (by rw [hEq]; exact List.mem_cons_self _ _)
    · intro q hq
      exact hmem q (by rw [hEq]; exact List.mem_cons_of_mem _ hq)

theorem gapChain_lt (L : List (Nat × Nat)) :
    ∀ p : Nat × Nat, SpansWF L → GapChain (p :: L) → ∀ q ∈ L, p.2 < q.1 := by
  induction L with
  | nil => intro p _ _ q hq; simp at hq
  | cons h t ih =>
    intro p hwf hchain q hq
    have h1 : p.2 < h.1 := (List.chain'_cons.mp hchain).1
    rcases List.mem_cons.mp hq with rfl | hqt
    · exact h1
    · have hwft : SpansWF t := fun r hr => hwf r (List.mem_cons_of_mem _ hr)
      have hh : h.1 ≤ h.2 := hwf h (List.mem_cons_self _ _)
      have := ih h hwft (List.chain'_cons.mp hchain).2 q hqt
      omega

theorem gapChain_pairwise_lt (L : List (Nat × Nat)) (hwf : SpansWF L)
    (hgap : GapChain L) : L.Pairwise (fun x y => x.1 < y.1) := by
  induction L with
  | nil => simp
  | cons p t ih =>
    have hwft : SpansWF t := fun r hr => hwf r (List.mem_cons_of_mem _ hr)
    refine List.pairwise_cons.mpr ⟨?_, ih hwft hgap.tail⟩
    intro q hq
    have hp : p.1 ≤ p.2 := hwf p (List.mem_cons_self _ _)
    have := gapChain_lt t p hwft hgap q hq
    omega

/-- On a well-formed, strictly separated list, `merge_ranges` is the
identity. -/
theorem merge_ranges_of_gapChain (L : List (Nat × Nat)) (hwf : SpansWF L)
    (hgap : GapChain L) : merge_ranges L = L := by
  unfold merge_ranges
  have hsorted : L.Pairwise (fun x y : Nat × Nat => decide (x.1 ≤ y.1) = true) :=
    (gapChain_pairwise_lt L hwf hgap).imp (fun h => by simp [le_of_lt h])
  rw [List.mergeSort_of_sorted hsorted]
  cases L with
  | nil => rfl
  | cons p rest =>
    obtain ⟨s, e⟩ := p
    exact mergeLoop_of_gapChain rest s e hgap

/-- C5 (spec 4.5 / testable property): on well-formed span lists,
`merge_ranges` is idempotent and its output is strictly separated
(sorted ascending with `next.start > prev.end`). -/
theorem spec_C5_merge_ranges_idem (S : List (Nat × Nat)) (hS : SpansWF S) :
    merge_ranges (merge_ranges S) = merge_ranges S ∧
      GapChain (merge_ranges S) ∧
      (merge_ranges S).Pairwise (fun x y => x.1 < y.1) := by
  have hgap := merge_ranges_gapChain S
  have hwf := merge_ranges_wf S hS
  exact ⟨merge_ranges_of_gapChain _ hwf hgap, hgap,
    gapChain_pairwise_lt _ hwf hgap⟩

/-- Witness for C5 at a concrete span list. -/
theorem spec_C5_witness :
    SpansWF [(4, 7), (0, 2), (2, 3), (9, 9)] ∧
      (merge_ranges (merge_ranges [(4, 7), (0, 2), (2, 3), (9, 9)]) =
          merge_ranges [(4, 7), (0, 2), (2, 3), (9, 9)] ∧
        GapChain (merge_ranges [(4, 7), (0, 2), (2, 3), (9, 9)]) ∧
        (merge_ranges [(4, 7), (0, 2), (2, 3), (9, 9)]).Pairwise
          (fun x y => x.1 < y.1)) :=
  ⟨by decide, spec_C5_merge_ranges_idem _ (by decide)⟩

/- ------------------------------------------------------------------
   Rule Parser: `parse_flag_tokens` / `parse_pattern_line` from
   `pattern_transformer.py` (l. 39-119).
   Python `str` operations are modelled on `List Char`; whitespace is
   the ASCII whitespace set (Python additionally strips rare Unicode
   spaces, which no claim depends on).
   ------------------------------------------------------------------ -/

/-- ASCII whitespace, the `\s` class and the default `str.strip` set. -/
def isPySpace (c : Char) : Bool :=
  c = ' ' || c = '\t' || c = '\n' || c = '\r' || c = '\x0b' || c = '\x0c'

/-- `str.strip()`: drop whitespace from both ends. -/
def pyStrip (l : List Char) : List Char :=
  ((l.dropWhile isPySpace).reverse.dropWhile isPySpace).reverse

/-- Does `pat` occur at the head of `l`? -/
def startsWith : List Char → List Char → Bool
  | [], _ => true
  | _ :: _, [] => false
  | p :: ps, c :: cs => p = c && startsWith ps cs

/-- Python `s.split(sep, 1)`: the part before the first occurrence of
`sep`, and (when `sep` occurs) the remainder after it. -/
def splitOnce (sep : List Char) : List Char → List Char × Option (List Char)
  | [] => ([], none)
  | c :: rest =>
    if startsWith sep (c :: rest) then ([], some ((c :: rest).drop sep.length))
    else
      let pr := splitOnce sep rest
      (c :: pr.1, pr.2)

/-- The separator class `[,\|;\s]` of `parse_flag_tokens`. -/
def isFlagSep (c : Char) : Bool :=
  c = ',' || c = '|' || c = ';' || isPySpace c

mutual

/-- `re.split(r"[,\|;\s]+", s)`, main state: accumulating a token. -/
def reSplitSepsAux (cur : List Char) : List Char → List (List Char)
  | [] => [cur.reverse]
  | c :: rest =>
    if isFlagSep c then cur.reverse :: reSplitSkip rest
    else reSplitSepsAux (c :: cur) rest

/-- `re.split(r"[,\|;\s]+", s)`, skipping the rest of a separator run. -/
def reSplitSkip : List Char → List (List Char)
  | [] => [[]]
  | c :: rest => if isFlagSep c then reSplitSkip rest else reSplitSepsAux [c] rest

end

/-- `re.split(r"[,\|;\s]+", s)`. -/
def reSplitSeps (l : List Char) : List (List Char) := reSplitSepsAux [] l

/-- `FLAG_ALIASES` with CPython's numeric flag values
(IGNORECASE 2, MULTILINE 8, DOTALL 16, VERBOSE 64, ASCII 256). -/
def FLAG_ALIASES : List (List Char × Nat) :=
  [("IGNORECASE".toList, 2), ("MULTILINE".toList, 8), ("DOTALL".toList, 16),
   ("VERBOSE".toList, 64), ("ASCII".toList, 256),
   ("I".toList, 2), ("M".toList, 8), ("S".toList, 16), ("X".toList, 64),
   ("A".toList, 256),
   ("RE.IGNORECASE".toList, 2), ("RE.I".toList, 2),
   ("RE.MULTILINE".toList, 8), ("RE.M".toList, 8),
   ("RE.DOTALL".toList, 16), ("RE.S".toList, 16),
   ("RE.VERBOSE".toList, 64), ("RE.X".toList, 64),
   ("RE.ASCII".toList, 256), ("RE.A".toList, 256)]

/-- Dictionary lookup in `FLAG_ALIASES`. -/
def aliasLookup (key : List Char) : Option Nat :=
  (FLAG_ALIASES.find? (fun kv => kv.1 = key)).map (·.2)

/-- The token loop of `parse_flag_tokens`. The inner
`if len(key) == 1 and key in FLAG_ALIASES` of the `else` branch is kept
as written; it re-tests the membership that just failed. -/
def flagFold (acc : Nat) : List (List Char) → Nat
  | [] => acc
  | t :: ts =>
    if t = [] then flagFold acc ts
    else
      let key := (pyStrip t).map Char.toUpper
      match aliasLookup key with
      | some v => flagFold (acc ||| v) ts
      | none =>
        flagFold
          (if key.length = 1 then
            match aliasLookup key with
            | some v => acc ||| v
            | none => acc
          else acc) ts

/-- `parse_flag_tokens(tok_text)`. -/
def parse_flag_tokens (tok_text : List Char) : Nat :=
  if tok_text = [] then 0
  else flagFold 0 (reSplitSeps (pyStrip tok_text))

/-- Attempt to match `flags\s*:\s*(.*)$` (IGNORECASE) at the head of `s`,
returning group 1.  `.` excludes `\n`; `$` holds at the end of the string
or just before a terminal `\n`; the greedy `\s*:\s*` needs no backtracking
because `:` is not whitespace. -/
def matchFlagsAt (s : List Char) : Option (List Char) :=
  if (s.take 5).map Char.toLower = "flags".toList then
    match (s.drop 5).dropWhile isPySpace with
    | ':' :: r3 =>
      let r4 := r3.dropWhile isPySpace
      let cap := r4.takeWhile (fun c => c ≠ '\n')
      let rest := r4.dropWhile (fun c => c ≠ '\n')
      if rest = [] ∨ rest = ['\n'] then some cap else none
    | _ => none
  else none

/-- `re.search(r"flags\s*:\s*(.*)$", s, re.IGNORECASE)`: leftmost
starting position at which the pattern matches. -/
def searchFlags (s : List Char) : Option (List Char) :=
  match matchFlagsAt s with
  | some cap => some cap
  | none =>
    match s with
    | [] => none
    | _ :: rest => searchFlags rest

/-- `parse_pattern_line(line)` from `pattern_transformer.py` l. 96-119:
split at `##`, extract the flags text, split the rule part at `->`
(whole rule part becomes the pattern when absent), and OR `re.MULTILINE`
(= 8) into the parsed flags unconditionally. -/
def parse_pattern_line (line : List Char) : List Char × List Char × Nat :=
  let parts := splitOnce ("##".toList) line
  let rule_part := pyStrip parts.1
  let flags_part := match parts.2 with | some p => pyStrip p | none => []
  let flags_text :=
    if flags_part = [] then []
    else
      match searchFlags flags_part with
      | some cap => pyStrip cap
      | none => flags_part
  let pr :=
    match splitOnce ("->".toList) rule_part with
    | (left, some right) => (pyStrip left, pyStrip right)
    | (_, none) => (rule_part, [])
  (pr.1, pr.2, parse_flag_tokens flags_text ||| 8)

/-- C8: the parsed flag set always contains `re.MULTILINE` (bit 3,
value 8), whatever the user wrote on the line. -/
theorem spec_C8_multiline_always (line : List Char) :
    Nat.testBit (parse_pattern_line line).2.2 3 = true := by
  simp only [parse_pattern_line]
  simp [Nat.testBit_or]
  exact Or.inr (by decide)

theorem startsWith_self (p t : List Char) : startsWith p (p ++ t) = true := by
  induction p with
  | nil => rfl
  | cons c cs ih => simpa [startsWith] using ih

theorem startsWith_drop (p : List Char) :
    ∀ l, startsWith p l = true → l = p ++ l.drop p.length := by
  induction p with
  | nil => intro l _; simp
  | cons c cs ih =>
    intro l h
    cases l with
    | nil => simp [startsWith] at h
    | cons d ds =>
      simp only [startsWith, Bool.and_eq_true, decide_eq_true_eq] at h
      obtain ⟨rfl, h2⟩ := h
      simpa using ih ds h2

theorem splitOnce_none_fst (sep : List Char) :
    ∀ l, (splitOnce sep l).2 = none → (splitOnce sep l).1 = l := by
  intro l
  induction l with
  | nil => intro _; rfl
  | cons c rest ih =>
    intro h
    by_cases hs : startsWith sep (c :: rest) = true
    · simp [splitOnce, hs] at h
    · simp only [splitOnce, if_neg hs] at h ⊢
      rw [ih h]

theorem splitOnce_some_decomp (sep : List Char) :
    ∀ l r, (splitOnce sep l).2 = some r →
      l = (splitOnce sep l).1 ++ sep ++ r := by
  intro l
  induction l with
  | nil => intro r h; simp [splitOnce] at h
  | cons c rest ih =>
    intro r h
    by_cases hs : startsWith sep (c :: rest) = true
    · simp only [splitOnce, if_pos hs] at h ⊢
      obtain rfl : (c :: rest).drop sep.length = r := by simpa using h
      simpa using startsWith_drop sep (c :: rest) hs
    · simp only [splitOnce, if_neg hs] at h ⊢
      conv_lhs => rw [ih r h]
      simp

theorem splitOnce_isSome_append (sep : List Char) (hne : sep ≠ []) :
    ∀ u v, ((splitOnce sep (u ++ sep ++ v)).2).isSome = true := by
  intro u
  induction u with
  | nil =>
    intro v
    cases sep with
    | nil => exact absurd rfl hne
    | cons c cs =>
      have hs : startsWith (c :: cs) (c :: (cs ++ v)) = true := by
        simpa using startsWith_self (c :: cs) v
      simp [splitOnce, hs]
  | cons c u' ih =>
    intro v
    by_cases hs : startsWith sep (c :: (u' ++ (sep ++ v))) = true
    · simp [splitOnce, hs, List.append_assoc]
    · have := ih v
      simp only [List.append_assoc] at this
      simpa [splitOnce, hs, List.append_assoc] using this

theorem pyStrip_decomp (l : List Char) :
    ∃ u v, l = u ++ pyStrip l ++ v := by
  refine ⟨l.takeWhile isPySpace,
    ((l.dropWhile isPySpace).reverse.takeWhile isPySpace).reverse, ?_⟩
  have h2 : pyStrip l ++
      ((l.dropWhile isPySpace).reverse.takeWhile isPySpace).reverse
      = l.dropWhile isPySpace := by
    unfold pyStrip
    rw [← List.reverse_append, List.takeWhile_append_dropWhile,
      List.reverse_reverse]
  rw [List.append_assoc, h2, List.takeWhile_append_dropWhile]

/-- If the whole line has no `->` occurrence, neither does the stripped
part before `##`. -/
theorem rule_part_no_arrow (line : List Char)
    (h : (splitOnce ("->".toList) line).2 = none) :
    (splitOnce ("->".toList) (pyStrip (splitOnce ("##".toList) line).1)).2
      = none := by
  set rp := pyStrip (splitOnce ("##".toList) line).1 with hrp
  cases ho : (splitOnce ("->".toList) rp).2 with
  | none => rfl
  | some r =>
    exfalso
    have hdec := splitOnce_some_decomp _ rp r ho
    obtain ⟨u1, v1, hdec1⟩ := pyStrip_decomp (splitOnce ("##".toList) line).1
    have hline : ∃ u2 v2, line = u2 ++ (splitOnce ("##".toList) line).1 ++ v2 := by
      cases h2 : (splitOnce ("##".toList) line).2 with
      | none =>
        refine ⟨[], [], ?_⟩
        simp only [List.nil_append, List.append_nil]
        exact (splitOnce_none_fst _ line h2).symm
      | some r2 =>
        exact ⟨[], "##".toList ++ r2, by
          simpa using splitOnce_some_decomp _ line r2 h2⟩
    obtain ⟨u2, v2, hdec2⟩ := hline
    rw [← hrp] at hdec1
    obtain ⟨A, hA⟩ : ∃ A, rp = A ++ "->".toList ++ r := ⟨_, hdec⟩
    have hline' : line = (u2 ++ u1 ++ A) ++ "->".toList ++ (r ++ v1 ++ v2) := by
      rw [hdec2, hdec1, hA]
      simp
    have hsome := splitOnce_isSome_append ("->".toList) (by decide)
      (u2 ++ u1 ++ A) (r ++ v1 ++ v2)
    rw [← hline', h] at hsome
    simp at hsome

/-- C10: when the line has no `->` delimiter, the whole (stripped) rule
part becomes the pattern and the replacement is empty.  (The parser is
total by construction: every step of the embedding is a total function
on arbitrary lines, mirroring the Python code, which performs no
fallible operation.) -/
theorem spec_C10_parse_no_delimiter (line : List Char)
    (h : (splitOnce ("->".toList) line).2 = none) :
    (parse_pattern_line line).1 = pyStrip (splitOnce ("##".toList) line).1 ∧
      (parse_pattern_line line).2.1 = [] := by
  have hrp := rule_part_no_arrow line h
  rcases hsp : splitOnce ("->".toList)
      (pyStrip (splitOnce ("##".toList) line).1) with ⟨left, o⟩
  rw [hsp] at hrp
  have ho : o = none := hrp
  subst ho
  simp at hsp
  constructor <;> simp [parse_pattern_line, hsp]

/-- Witness for C10 at a concrete delimiter-free line. -/
theorem spec_C10_witness :
    (splitOnce ("->".toList) ("foo.* ## flags: I".toList)).2 = none ∧
      ((parse_pattern_line ("foo.* ## flags: I".toList)).1 =
          pyStrip (splitOnce ("##".toList) ("foo.* ## flags: I".toList)).1 ∧
        (parse_pattern_line ("foo.* ## flags: I".toList)).2.1 = []) :=
  ⟨by decide, spec_C10_parse_no_delimiter _ (by decide)⟩

/- ------------------------------------------------------------------
   Transformation Engine.  Shallow embedding of the finditer-based
   engines: `apply_patterns_and_record_fast` (`OLD_regex_apply_gui.py`
   l. 157-264), `ApplyWorker._apply_patterns_fast` with records
   (`OLD2_regex_apply_gui.py` l. 206-322) and the cooperative-stop
   variant without records (`interactive_regex.py` l. 252-310).
   The regex library is abstracted: a compiled rule is modelled by its
   replacement template and by the match list `re.finditer` yields on a
   given text (ordered, non-overlapping — `ValidFrom`), each match
   carrying the result of `m.expand(repl)` (`none` when expansion
   raises `re.error`).  A rule whose pattern does not compile is
   modelled as `none`.
   ------------------------------------------------------------------ -/

/-- One regex match: span `[ms, me)` in the current text plus the
outcome of `m.expand(repl_text)`. -/
structure RMatch where
  ms : Nat
  me : Nat
  expandRes : Option (List Char)
deriving DecidableEq

/-- A compiled rule: replacement template and finditer oracle. -/
structure CRule where
  repl : List Char
  find : List Char → List RMatch

/-- Compile outcome of a rule (`none` = `re.error` in `re.compile`). -/
abbrev CompiledRule := Option CRule

/-- `re.finditer` guarantees: matches are in left-to-right order,
non-overlapping, within the text. -/
def ValidFrom (n : Nat) : Nat → List RMatch → Prop
  | _, [] => True
  | lastEnd, m :: ms =>
    lastEnd ≤ m.ms ∧ m.ms ≤ m.me ∧ m.me ≤ n ∧ ValidFrom n m.me ms

/-- The change-log record type. -/
inductive RecType
  | del
  | ins
deriving DecidableEq

/-- A `ChangeRecord` as written to the JSONL log.  The timestamp and the
copied pattern/replacement source strings are pure provenance constants
with no influence on any claim and are not modelled. -/
structure ChangeRecord where
  typ : RecType
  pos : Nat
  length : Nat
  text : List Char
  pattern_idx : Nat
deriving DecidableEq

/-- Records emitted for one match at position `a` (delete of the matched
text when non-empty, then insert of the replacement when non-empty). -/
def recordsFor (pidx a : Nat) (matched replacement : List Char) :
    List ChangeRecord :=
  (if 0 < matched.length
    then [⟨RecType.del, a, matched.length, matched, pidx⟩] else [])
  ++ (if 0 < replacement.length
    then [⟨RecType.ins, a, replacement.length, replacement, pidx⟩] else [])

/-- The match loop of one rule pass (OLD2 l. 233-301): slice-concatenate
the gap before each match, the expanded replacement (falling back to the
literal template when expansion failed), and finally the remainder. -/
def applyPassRec (pidx : Nat) (repl src : List Char) :
    Nat → List RMatch → List Char × List ChangeRecord
  | lastEnd, [] => (pySliceFrom src lastEnd, [])
  | lastEnd, m :: ms =>
    let gap := pySlice src lastEnd m.ms
    let matched := pySlice src m.ms m.me
    let replacement := m.expandRes.getD repl
    let rest := applyPassRec pidx repl src m.me ms
    (gap ++ replacement ++ rest.1,
      recordsFor pidx m.ms matched replacement ++ rest.2)

/-- The rule loop of the record-keeping engine: compile failures are
skipped (empty record group), each surviving rule re-scans the text
produced by the previous pass. -/
def applyRulesRec (txt : List Char) :
    Nat → List CompiledRule → List Char × List (List ChangeRecord)
  | _, [] => (txt, [])
  | pidx, none :: rs =>
    let r := applyRulesRec txt (pidx + 1) rs
    (r.1, [] :: r.2)
  | pidx, some cr :: rs =>
    let pass := applyPassRec pidx cr.repl txt 0 (cr.find txt)
    let r := applyRulesRec pass.1 (pidx + 1) rs
    (r.1, pass.2 :: r.2)

/-- Replay one pass's records against the text as it stood at the start
of that pass: a delete consumes `length` source characters at `pos`, an
insert emits `text` at `pos`; positions already consumed stay consumed. -/
def replayPass (src : List Char) : Nat → List ChangeRecord → List Char
  | cursor, [] => pySliceFrom src cursor
  | cursor, r :: rest =>
    match r.typ with
    | RecType.del =>
      pySlice src cursor r.pos ++ replayPass src (r.pos + r.length) rest
    | RecType.ins =>
      pySlice src cursor r.pos ++ r.text
        ++ replayPass src (max cursor r.pos) rest

/-- Replay the whole log, pass by pass, in emission order. -/
def replayAll (txt : List Char) (passes : List (List ChangeRecord)) :
    List Char :=
  passes.foldl (fun t recs => replayPass t 0 recs) txt

/-- Lower bound on the first record position (trivial for the empty
log). -/
def recsLB (c : Nat) : List ChangeRecord → Prop
  | [] => True
  | r :: _ => c ≤ r.pos

theorem replayPass_advance (src : List Char) (recs : List ChangeRecord)
    (c c' : Nat) (hcc : c ≤ c') (hlb : recsLB c' recs) :
    replayPass src c recs = pySlice src c c' ++ replayPass src c' recs := by
  cases recs with
  | nil =>
    simp only [replayPass, pySliceFrom]
    rw [pySlice_cat_drop src c c' hcc]
  | cons r rest =>
    have hpos : c' ≤ r.pos := hlb
    cases htyp : r.typ with
    | del =>
      simp only [replayPass, htyp]
      rw [pySlice_split src c c' r.pos hcc hpos]
      simp
    | ins =>
      simp only [replayPass, htyp]
      rw [pySlice_split src c c' r.pos hcc hpos]
      have h1 : max c r.pos = r.pos := by omega
      have h2 : max c' r.pos = r.pos := by omega
      rw [h1, h2]
      simp

theorem recsLB_mono (c c' : Nat) (recs : List ChangeRecord)
    (h : c ≤ c') (hlb : recsLB c' recs) : recsLB c recs := by
  cases recs with
  | nil => trivial
  | cons r rest => exact le_trans h hlb

theorem applyPassRec_recsLB (pidx : Nat) (repl src : List Char) :
    ∀ ms lastEnd, ValidFrom src.length lastEnd ms →
      recsLB lastEnd (applyPassRec pidx repl src lastEnd ms).2 := by
  intro ms
  induction ms with
  | nil => intro lastEnd _; trivial
  | cons m ms ih =>
    intro lastEnd hv
    obtain ⟨h1, h2, h3, hv'⟩ := hv
    have hrest := ih m.me hv'
    simp only [applyPassRec, recordsFor]
    by_cases hm : 0 < (pySlice src m.ms m.me).length
    · simpa [hm, recsLB] using h1
    · by_cases hr : 0 < (m.expandRes.getD repl).length
      · simpa [hm, hr, recsLB] using h1
      · simpa [hm, hr] using recsLB_mono lastEnd m.me _ (by omega) hrest

/-- Replaying the records of one pass reconstructs that pass's output. -/
theorem replayPass_applyPassRec (pidx : Nat) (repl src : List Char) :
    ∀ ms lastEnd, ValidFrom src.length lastEnd ms →
      replayPass src lastEnd (applyPassRec pidx repl src lastEnd ms).2
        = (applyPassRec pidx repl src lastEnd ms).1 := by
  intro ms
  induction ms with
  | nil => intro lastEnd _; rfl
  | cons m ms ih =>
    intro lastEnd hv
    obtain ⟨h1, h2, h3, hv'⟩ := hv
    have hlen : (pySlice src m.ms m.me).length = m.me - m.ms :=
      pySlice_length src m.ms m.me h2 h3
    have hrest := ih m.me hv'
    have hlb := applyPassRec_recsLB pidx repl src ms m.me hv'
    simp only [applyPassRec, recordsFor]
    by_cases hm : 0 < (pySlice src m.ms m.me).length
    · by_cases hr : 0 < (m.expandRes.getD repl).length
      · -- delete record then insert record
        rw [if_pos hm, if_pos hr]
        simp only [List.cons_append, List.nil_append, replayPass,
          List.append_eq]
        rw [hlen]
        have hme : m.ms + (m.me - m.ms) = m.me := by omega
        rw [hme]
        have hmax : max m.me m.ms = m.me := by omega
        rw [pySlice_empty src m.me m.ms h2, hmax, hrest]
        simp
      · -- delete record only (empty replacement)
        have hrepl : m.expandRes.getD repl = [] :=
          List.eq_nil_of_length_eq_zero (by omega)
        rw [if_pos hm, if_neg hr]
        simp only [List.cons_append, List.nil_append, List.append_nil,
          replayPass, List.append_eq]
        rw [hlen]
        have hme : m.ms + (m.me - m.ms) = m.me := by omega
        rw [hme, hrest, hrepl]
        simp
    · -- empty match
      have hmm : pySlice src m.ms m.me = [] :=
        List.eq_nil_of_length_eq_zero (by omega)
      have hms : m.me = m.ms := by omega
      by_cases hr : 0 < (m.expandRes.getD repl).length
      · -- insert record only
        rw [if_neg hm, if_pos hr]
        simp only [List.nil_append, List.cons_append, replayPass,
          List.append_eq]
        have hmax : max lastEnd m.ms = m.ms := by omega
        rw [hmax, ← hms, hrest]
      · -- no records at all for this match
        have hrepl : m.expandRes.getD repl = [] :=
          List.eq_nil_of_length_eq_zero (by omega)
        rw [if_neg hm, if_neg hr]
        simp only [List.nil_append]
        rw [replayPass_advance src _ lastEnd m.me (le_trans h1 h2) hlb,
          hrest, hrepl]
        have hg : pySlice src lastEnd m.me = pySlice src lastEnd m.ms := by
          rw [hms]
        rw [hg]
        simp

/-- Oracle soundness: every rule's finditer output is valid on every
text. -/
def RulesValid (rules : List CompiledRule) : Prop :=
  ∀ r ∈ rules, ∀ cr : CRule, r = some cr →
    ∀ t : List Char, ValidFrom t.length 0 (cr.find t)

/-- C1: replaying the emitted ChangeRecords pass by pass, in emission
order, with positions read in the text as it stood at the start of each
rule's pass, reconstructs the engine's output text from its input. -/
theorem spec_C1_records_replay (rules : List CompiledRule)
    (txt : List Char) (pidx : Nat) (hv : RulesValid rules) :
    replayAll txt (applyRulesRec txt pidx rules).2
      = (applyRulesRec txt pidx rules).1 := by
  induction rules generalizing txt pidx with
  | nil => rfl
  | cons r rs ih =>
    have hvrs : RulesValid rs := by
      intro r' hr' cr hcr t
      exact hv r' (List.mem_cons_of_mem _ hr') cr hcr t
    cases r with
    | none =>
      simp only [applyRulesRec, replayAll, List.foldl_cons]
      have h0 : replayPass txt 0 [] = txt := by
        simp [replayPass, pySliceFrom]
      rw [h0]
      exact ih txt (pidx + 1) hvrs
    | some cr =>
      have hvr : ValidFrom txt.length 0 (cr.find txt) :=
        hv (some cr) (List.mem_cons_self _ _) cr rfl txt
      simp only [applyRulesRec, replayAll, List.foldl_cons]
      rw [replayPass_applyPassRec pidx cr.repl txt (cr.find txt) 0 hvr]
      exact ih _ (pidx + 1) hvrs

/-- A concrete rule for witnesses: replaces the first character of any
non-empty text by `xy`. -/
def wRule : CRule :=
  ⟨['r'], fun t => if 1 ≤ t.length then [⟨0, 1, some ['x', 'y']⟩] else []⟩

theorem wRule_valid : RulesValid [some wRule] := by
  intro r hr cr hcr t
  simp only [List.mem_singleton] at hr
  subst hr
  cases hcr
  simp only [wRule]
  by_cases h : 1 ≤ t.length
  · simp only [if_pos h]
    exact ⟨Nat.le_refl 0, Nat.zero_le 1, h, trivial⟩
  · simp [if_neg h, ValidFrom]

/-- Witness for C1 on a one-rule list and the text `ab`. -/
theorem spec_C1_witness :
    RulesValid [some wRule] ∧
      replayAll ['a', 'b'] (applyRulesRec ['a', 'b'] 0 [some wRule]).2
        = (applyRulesRec ['a', 'b'] 0 [some wRule]).1 :=
  ⟨wRule_valid, spec_C1_records_replay [some wRule] ['a', 'b'] 0 wRule_valid⟩

/- ------------------------------------------------------------------
   C7: local recovery from failed template expansion.
   ------------------------------------------------------------------ -/

/-- C7: when expanding the template against a match's groups fails
(`expandRes = none`), the engine behaves exactly as if that one match
had expanded to the literal replacement template: the run continues and
no other match is affected. -/
theorem spec_C7_expand_fallback (pidx : Nat) (repl src : List Char)
    (lastEnd : Nat) (pre post : List RMatch) (m : RMatch)
    (h : m.expandRes = none) :
    applyPassRec pidx repl src lastEnd (pre ++ m :: post)
      = applyPassRec pidx repl src lastEnd
          (pre ++ { m with expandRes := some repl } :: post) := by
  induction pre generalizing lastEnd with
  | nil =>
    simp only [List.nil_append, applyPassRec, h]
    rfl
  | cons q pre ih =>
    simp only [List.cons_append, applyPassRec, List.append_eq]
    rw [ih q.me]

/-- Witness for C7: one match with failing expansion on the text `ab`. -/
theorem spec_C7_witness :
    (⟨0, 1, none⟩ : RMatch).expandRes = none ∧
      applyPassRec 0 ['r'] ['a', 'b'] 0 ([] ++ (⟨0, 1, none⟩ : RMatch) :: [])
        = applyPassRec 0 ['r'] ['a', 'b'] 0
            ([] ++ (⟨0, 1, some ['r']⟩ : RMatch) :: []) :=
  ⟨rfl, spec_C7_expand_fallback 0 ['r'] ['a', 'b'] 0 [] [] ⟨0, 1, none⟩ rfl⟩

/- ------------------------------------------------------------------
   Cooperative-stop engine (`interactive_regex.py`,
   `ApplyWorker._apply_patterns_fast`, l. 252-310).  The stop flag is
   set asynchronously and read at the documented safe points only; the
   reads are serialized, so the flag is modelled by the index of the
   first read that observes `True` (`none` = never set).
   ------------------------------------------------------------------ -/

/-- Does the `counter`-th read of `self._should_stop` observe `True`? -/
def checkStop (stopAt : Option Nat) (counter : Nat) : Bool :=
  match stopAt with
  | none => false
  | some t => t ≤ counter

/-- Match loop with a stop check before every match (l. 286-292): on
stop, the pieces built so far are joined with the unprocessed remainder
`current[last_end:]` and the whole engine returns.  Result: (text,
next read index, stopped?). -/
def applyPassStop (stopAt : Option Nat) (repl src : List Char) :
    Nat → Nat → List RMatch → List Char × Nat × Bool
  | counter, lastEnd, [] => (pySliceFrom src lastEnd, counter, false)
  | counter, lastEnd, m :: ms =>
    if checkStop stopAt counter then
      (pySliceFrom src lastEnd, counter + 1, true)
    else
      let gap := pySlice src lastEnd m.ms
      let replacement := m.expandRes.getD repl
      let rest := applyPassStop stopAt repl src (counter + 1) m.me ms
      (gap ++ replacement ++ rest.1, rest.2.1, rest.2.2)

/-- Rule loop with a stop check at the top of every rule iteration
(l. 256-257); compile failures are skipped, zero-match rules are
skipped, and a stop inside a pass returns that pass's partial text. -/
def applyRulesStop (stopAt : Option Nat) :
    List Char → Nat → List CompiledRule → List Char × Nat
  | txt, counter, [] => (txt, counter)
  | txt, counter, r :: rs =>
    if checkStop stopAt counter then (txt, counter + 1)
    else
      match r with
      | none => applyRulesStop stopAt txt (counter + 1) rs
      | some cr =>
        if cr.find txt = [] then applyRulesStop stopAt txt (counter + 1) rs
        else
          let pass := applyPassStop stopAt cr.repl txt (counter + 1) 0
            (cr.find txt)
          if pass.2.2 then (pass.1, pass.2.1)
          else applyRulesStop stopAt pass.1 pass.2.1 rs

/-- Pure text semantics of the rule loop: first `p` rules applied fully,
then the first `k` matches of rule `p` applied and the remainder of the
text appended unchanged. -/
def runPureCut (txt : List Char) :
    List CompiledRule → Nat → Nat → List Char
  | [], _, _ => txt
  | none :: _, 0, _ => txt
  | some cr :: _, 0, k =>
    (applyPassRec 0 cr.repl txt 0 ((cr.find txt).take k)).1
  | none :: rs, p + 1, k => runPureCut txt rs p k
  | some cr :: rs, p + 1, k =>
    runPureCut (applyPassRec 0 cr.repl txt 0 (cr.find txt)).1 rs p k

theorem applyPassStop_char (stopAt : Option Nat) (repl src : List Char) :
    ∀ ms counter lastEnd, ∃ k, k ≤ ms.length ∧
      (applyPassStop stopAt repl src counter lastEnd ms).1
        = (applyPassRec 0 repl src lastEnd (ms.take k)).1 ∧
      ((applyPassStop stopAt repl src counter lastEnd ms).2.2 = false →
        k = ms.length) := by
  intro ms
  induction ms with
  | nil =>
    intro counter lastEnd
    exact ⟨0, Nat.le_refl 0, rfl, fun _ => rfl⟩
  | cons m ms ih =>
    intro counter lastEnd
    cases hc : checkStop stopAt counter with
    | true =>
      refine ⟨0, Nat.zero_le _, ?_, ?_⟩
      · simp [applyPassStop, hc, applyPassRec]
      · intro hf
        simp [applyPassStop, hc] at hf
    | false =>
      obtain ⟨k, hk, heq, hflag⟩ := ih (counter + 1) m.me
      refine ⟨k + 1, by simpa using Nat.succ_le_succ hk, ?_, ?_⟩
      · simp [applyPassStop, applyPassRec, hc, List.take_succ_cons, heq]
      · intro hf
        simp only [applyPassStop, hc] at hf
        simp at hf
        have := hflag hf
        simp [this]

/-- C3: whatever the stop schedule, the engine returns — without
raising — a text equal to some pure cut run: every completed rule pass
kept in full, and at the interrupted rule exactly the matches processed
before the stop was observed, concatenated with the unprocessed
remainder unchanged.  Stops land only at match boundaries. -/
theorem spec_C3_stop_partial (stopAt : Option Nat)
    (rules : List CompiledRule) (txt : List Char) (counter : Nat) :
    ∃ p k, (applyRulesStop stopAt txt counter rules).1
      = runPureCut txt rules p k := by
  induction rules generalizing txt counter with
  | nil => exact ⟨0, 0, rfl⟩
  | cons r rs ih =>
    by_cases hc : checkStop stopAt counter = true
    · refine ⟨0, 0, ?_⟩
      cases r with
      | none => simp [applyRulesStop, hc, runPureCut]
      | some cr =>
        simp [applyRulesStop, hc, runPureCut, applyPassRec, pySliceFrom]
    · cases r with
      | none =>
        obtain ⟨p, k, h⟩ := ih txt (counter + 1)
        refine ⟨p + 1, k, ?_⟩
        simpa [applyRulesStop, hc, runPureCut] using h
      | some cr =>
        by_cases hf : cr.find txt = []
        · obtain ⟨p, k, h⟩ := ih txt (counter + 1)
          refine ⟨p + 1, k, ?_⟩
          simpa [applyRulesStop, hc, hf, runPureCut, applyPassRec,
            pySliceFrom] using h
        · obtain ⟨k0, hk0, heq, hflag⟩ :=
            applyPassStop_char stopAt cr.repl txt (cr.find txt)
              (counter + 1) 0
          by_cases hs : (applyPassStop stopAt cr.repl txt (counter + 1) 0
              (cr.find txt)).2.2 = true
          · refine ⟨0, k0, ?_⟩
            simp only [applyRulesStop, hc, Bool.not_eq_true, if_neg, hf,
              runPureCut]
            simp only [hs, if_pos]
            simpa [hc, hf, hs] using heq
          · have hk0' : k0 = (cr.find txt).length :=
              hflag (Bool.not_eq_true _ |>.mp hs)
            have hfull : (applyPassStop stopAt cr.repl txt (counter + 1) 0
                (cr.find txt)).1
                = (applyPassRec 0 cr.repl txt 0 (cr.find txt)).1 := by
              rw [heq, hk0', List.take_length]
            obtain ⟨p, k, h⟩ := ih
              ((applyPassRec 0 cr.repl txt 0 (cr.find txt)).1)
              ((applyPassStop stopAt cr.repl txt (counter + 1) 0
                (cr.find txt)).2.1)
            refine ⟨p + 1, k, ?_⟩
            simp only [applyRulesStop, hc, Bool.not_eq_true, if_neg, hf,
              runPureCut]
            simp only [hs, if_neg, Bool.not_eq_true]
            rw [hfull]
            exact h

/- ------------------------------------------------------------------
   C6: a rule that fails to compile.
   ------------------------------------------------------------------ -/

/-- Pure text semantics of the record engine's rule loop. -/
def runPure (txt : List Char) : List CompiledRule → List Char
  | [] => txt
  | none :: rs => runPure txt rs
  | some cr :: rs =>
    runPure (applyPassRec 0 cr.repl txt 0 (cr.find txt)).1 rs

theorem applyPassRec_fst_pidx (pidx : Nat) (repl src : List Char) :
    ∀ ms lastEnd, (applyPassRec pidx repl src lastEnd ms).1
      = (applyPassRec 0 repl src lastEnd ms).1 := by
  intro ms
  induction ms with
  | nil => intro lastEnd; rfl
  | cons m ms ih =>
    intro lastEnd
    simp only [applyPassRec]
    rw [ih m.me]

theorem applyRulesRec_fst (rules : List CompiledRule) :
    ∀ txt pidx, (applyRulesRec txt pidx rules).1 = runPure txt rules := by
  induction rules with
  | nil => intro txt pidx; rfl
  | cons r rs ih =>
    intro txt pidx
    cases r with
    | none => exact ih txt (pidx + 1)
    | some cr =>
      simp only [applyRulesRec, runPure]
      rw [applyPassRec_fst_pidx]
      exact ih _ (pidx + 1)

theorem applyRulesStop_none_fst (rules : List CompiledRule) :
    ∀ txt counter, (applyRulesStop none txt counter rules).1
      = runPure txt rules := by
  induction rules with
  | nil => intro txt counter; rfl
  | cons r rs ih =>
    intro txt counter
    cases r with
    | none =>
      simp only [applyRulesStop, checkStop, runPure]
      exact ih txt (counter + 1)
    | some cr =>
      by_cases hf : cr.find txt = []
      · have h1 : applyRulesStop none txt counter (some cr :: rs)
            = applyRulesStop none txt (counter + 1) rs := by
          simp [applyRulesStop, checkStop, hf]
        rw [h1, ih txt (counter + 1)]
        simp [runPure, hf, applyPassRec, pySliceFrom]
      · have hnostop : ∀ c lastEnd ms,
            (applyPassStop none cr.repl txt c lastEnd ms)
              = ((applyPassRec 0 cr.repl txt lastEnd ms).1,
                c + ms.length, false) := by
          intro c lastEnd ms
          induction ms generalizing c lastEnd with
          | nil => simp [applyPassStop, applyPassRec]
          | cons m ms ih2 =>
            simp only [applyPassStop, checkStop, applyPassRec]
            rw [ih2 (c + 1) m.me]
            simp only [List.length_cons]
            simp [Prod.ext_iff]
            all_goals omega
        have h1 : applyRulesStop none txt counter (some cr :: rs)
            = applyRulesStop none
                (applyPassRec 0 cr.repl txt 0 (cr.find txt)).1
                (counter + 1 + (cr.find txt).length) rs := by
          simp [applyRulesStop, checkStop, hf,
            hnostop (counter + 1) 0 (cr.find txt)]
        rw [h1, ih]
        simp [runPure]

theorem runPure_skip (pre post : List CompiledRule) :
    ∀ txt, runPure txt (pre ++ none :: post) = runPure txt (pre ++ post) := by
  induction pre with
  | nil => intro txt; rfl
  | cons r pre ih =>
    intro txt
    cases r with
    | none => exact ih txt
    | some cr => exact ih _

/-- C6 (amended): in the finditer-based engines (both the record-keeping
worker and the cooperative-stop worker, run to completion), a rule whose
pattern fails to compile is skipped and the output text equals the
output of the same rule list with that rule removed — subsequent rules
are still applied. -/
theorem spec_C6_compile_skip (pre post : List CompiledRule)
    (txt : List Char) (i j ci cj : Nat) :
    (applyRulesRec txt i (pre ++ none :: post)).1
        = (applyRulesRec txt j (pre ++ post)).1 ∧
      (applyRulesStop none txt ci (pre ++ none :: post)).1
        = (applyRulesStop none txt cj (pre ++ post)).1 := by
  constructor
  · rw [applyRulesRec_fst, applyRulesRec_fst, runPure_skip]
  · rw [applyRulesStop_none_fst, applyRulesStop_none_fst, runPure_skip]

/-- The transform loop of `PatternTransformerMainWindow.run_patterns`
(`pattern_transformer.py` l. 411-420): the whole rule loop of `re.sub`
calls sits in one `try`, so the first `re.error` — a rule that fails to
compile, or a failed template expansion, for which `re.sub` has no
per-match fallback — aborts the entire run with no output written. -/
def runPatternsLoop : List CompiledRule → List Char → Except Unit (List Char)
  | [], t => Except.ok t
  | none :: _, _ => Except.error ()
  | some cr :: rs, t =>
    if (cr.find t).any (fun m => m.expandRes.isNone) then Except.error ()
    else runPatternsLoop rs (applyPassRec 0 cr.repl t 0 (cr.find t)).1

/-- A rule that matches nothing (used as the "subsequent rule"). -/
def idleRule : CRule := ⟨[], fun _ => []⟩

/-- Counterexample to C6 as stated: in `run_patterns` a non-compiling
rule aborts the whole run instead of being skipped, so the output does
not equal the output with that rule removed. -/
theorem spec_C6_counterexample :
    runPatternsLoop [none, some idleRule] ['a'] = Except.error () ∧
      runPatternsLoop [some idleRule] ['a'] = Except.ok ['a'] ∧
      runPatternsLoop [none, some idleRule] ['a']
        ≠ runPatternsLoop [some idleRule] ['a'] :=
  ⟨rfl, rfl, fun h => Except.noConfusion h⟩

/- ------------------------------------------------------------------
   Alignment Engine: `difflib.SequenceMatcher(a=..., b=...)` as used by
   the repository - `isjunk=None` (so the junk set `bjunk` is empty) and
   `autojunk=True`.  Faithful embedding of `__chain_b`,
   `find_longest_match`, `get_matching_blocks` and `get_opcodes` from
   CPython's `difflib`, on `List Char`.
   ------------------------------------------------------------------ -/

/-- Ascending occurrence positions of `c` in `b` (`b2j` before the
autojunk purge). -/
def positions (b : List Char) (c : Char) : List Nat :=
  (List.range b.length).filter (fun j => b[j]? = some c)

/-- Autojunk: with `len(b) >= 200`, an element occurring more than
`n // 100 + 1` times is popular and removed from `b2j`. -/
def isPopular (b : List Char) (c : Char) : Bool :=
  decide (200 ≤ b.length) && decide (b.length / 100 + 1 < b.count c)

/-- `self.b2j.get(c, [])` after `__chain_b`. -/
def b2j (b : List Char) (c : Char) : List Nat :=
  if isPopular b c then [] else positions b c

/-- `j2lenget(j-1, 0)`: the previous diagonal entry (key `-1` is never
present). -/
def jPrev (m : Nat → Nat) : Nat → Nat
  | 0 => 0
  | j + 1 => m j

/-- The inner `for j in b2j.get(a[i], nothing)` loop of
`find_longest_match` for one row `i`: build `newj2len` and update the
best match on strictly longer chains. -/
def flmInner (i : Nat) (oldm : Nat → Nat) :
    List Nat → (Nat → Nat) → Nat × Nat × Nat → (Nat → Nat) × Nat × Nat × Nat
  | [], newm, best => (newm, best)
  | j :: js, newm, best =>
    let k := jPrev oldm j + 1
    let newm' := Function.update newm j k
    let best' := if best.2.2 < k then (i + 1 - k, j + 1 - k, k) else best
    flmInner i oldm js newm' best'

/-- The outer `for i in range(alo, ahi)` loop of `find_longest_match`.
`if j < blo: continue` / `if j >= bhi: break` on the ascending position
list is the filter below. -/
def flmRows (a b : List Char) (blo bhi : Nat) :
    List Nat → (Nat → Nat) × Nat × Nat × Nat → (Nat → Nat) × Nat × Nat × Nat
  | [], st => st
  | i :: is, st =>
    let js := (b2j b (a.getD i ' ')).filter
      (fun j => decide (blo ≤ j) && decide (j < bhi))
    let r := flmInner i st.1 js (fun _ => 0) st.2
    flmRows a b blo bhi is r

/-- Backward extension of the best match over equal elements (the
`not isbjunk` guard is always true: the junk set is empty). -/
def extendBack (a b : List Char) (alo blo : Nat) :
    Nat → Nat → Nat → Nat × Nat × Nat
  | besti, bestj, bestsize =>
    if h : alo < besti ∧ blo < bestj ∧
        a.getD (besti - 1) ' ' = b.getD (bestj - 1) ' ' then
      extendBack a b alo blo (besti - 1) (bestj - 1) (bestsize + 1)
    else (besti, bestj, bestsize)
termination_by besti _ _ => besti
decreasing_by omega

/-- Forward extension of the best match over equal elements. -/
def extendFwd (a b : List Char) (ahi bhi besti bestj : Nat) :
    Nat → Nat × Nat × Nat
  | bestsize =>
    if h : besti + bestsize < ahi ∧ bestj + bestsize < bhi ∧
        a.getD (besti + bestsize) ' ' = b.getD (bestj + bestsize) ' ' then
      extendFwd a b ahi bhi besti bestj (bestsize + 1)
    else (besti, bestj, bestsize)
termination_by bestsize => ahi - (besti + bestsize)
decreasing_by omega

/-- `find_longest_match(alo, ahi, blo, bhi)`.  The two final
junk-extension loops of the source are identities here: with
`isjunk=None` their `isbjunk` conditions are always false. -/
def find_longest_match (a b : List Char) (alo ahi blo bhi : Nat) :
    Nat × Nat × Nat :=
  let st := flmRows a b blo bhi (List.range' alo (ahi - alo))
    (fun _ => 0, alo, blo, 0)
  let e1 := extendBack a b alo blo st.2.1 st.2.2.1 st.2.2.2
  extendFwd a b ahi bhi e1.1 e1.2.1 e1.2.2

/-- Bounds and matched-slice equality of a `find_longest_match` result:
either the degenerate `(alo, blo, 0)` or a real match inside the
window; the matched characters are equal pointwise in both cases. -/
def FlmOk (a b : List Char) (alo ahi blo bhi : Nat)
    (t : Nat × Nat × Nat) : Prop :=
  ((t.1 = alo ∧ t.2.1 = blo ∧ t.2.2 = 0) ∨
    (alo ≤ t.1 ∧ t.1 + t.2.2 ≤ ahi ∧ blo ≤ t.2.1 ∧ t.2.1 + t.2.2 ≤ bhi ∧
      1 ≤ t.2.2)) ∧
  ∀ d < t.2.2, a.getD (t.1 + d) ' ' = b.getD (t.2.1 + d) ' '

/-- Invariant of the `j2len` map `m` after processing row `i`: a
non-zero entry at column `j` is a chain ending at `(i, j)` inside the
window, with matching characters. -/
def MapInvP (a b : List Char) (alo blo bhi i : Nat) (m : Nat → Nat) : Prop :=
  ∀ j, m j ≠ 0 → blo ≤ j ∧ j < bhi ∧ m j + blo ≤ j + 1 ∧ m j + alo ≤ i + 1 ∧
    ∀ d < m j, a.getD (i - d) ' ' = b.getD (j - d) ' '

/-- The previous row's map, as seen while processing row `i`
(chains end at row `i - 1`; forces `m = 0` everywhere when `i = alo`). -/
def PrevMapInv (a b : List Char) (alo blo bhi i : Nat) (m : Nat → Nat) : Prop :=
  ∀ j, m j ≠ 0 → blo ≤ j ∧ j < bhi ∧ m j + blo ≤ j + 1 ∧
    m j + alo + 1 ≤ i + 1 ∧
    ∀ d < m j, a.getD (i - 1 - d) ' ' = b.getD (j - d) ' '

/-- Invariant of the running best match. -/
def BestInv (a b : List Char) (alo ahi blo bhi : Nat)
    (t : Nat × Nat × Nat) : Prop :=
  t = (alo, blo, 0) ∨
    (alo ≤ t.1 ∧ t.1 + t.2.2 ≤ ahi ∧ blo ≤ t.2.1 ∧ t.2.1 + t.2.2 ≤ bhi ∧
      1 ≤ t.2.2 ∧ ∀ d < t.2.2, a.getD (t.1 + d) ' ' = b.getD (t.2.1 + d) ' ')

theorem mapInvP_to_prev (a b : List Char) (alo blo bhi i : Nat)
    (m : Nat → Nat) (h : MapInvP a b alo blo bhi i m) :
    PrevMapInv a b alo blo bhi (i + 1) m := by
  intro j hj
  obtain ⟨h1, h2, h3, h4, h5⟩ := h j hj
  refine ⟨h1, h2, h3, by omega, ?_⟩
  intro d hd
  have : i + 1 - 1 - d = i - d := by omega
  rw [this]
  exact h5 d hd

theorem flmInner_inv (a b : List Char) (alo ahi blo bhi i : Nat)
    (hia : alo ≤ i) (hih : i < ahi) (oldm : Nat → Nat)
    (hold : PrevMapInv a b alo blo bhi i oldm) :
    ∀ js, (∀ j ∈ js, blo ≤ j ∧ j < bhi ∧ b.getD j ' ' = a.getD i ' ') →
      ∀ newm best, MapInvP a b alo blo bhi i newm →
        BestInv a b alo ahi blo bhi best →
        MapInvP a b alo blo bhi i (flmInner i oldm js newm best).1 ∧
          BestInv a b alo ahi blo bhi (flmInner i oldm js newm best).2 := by
  intro js
  induction js with
  | nil => intro _ newm best hm hb; exact ⟨hm, hb⟩
  | cons j js ih =>
    intro hjs newm best hm hb
    obtain ⟨hblo, hbhi, hchar⟩ := hjs j (List.mem_cons_self _ _)
    have hkfacts : (jPrev oldm j + 1) + blo ≤ j + 1 ∧
        (jPrev oldm j + 1) + alo ≤ i + 1 ∧
        ∀ d < jPrev oldm j + 1,
          a.getD (i - d) ' ' = b.getD (j - d) ' ' := by
      cases j with
      | zero =>
        refine ⟨by simp only [jPrev]; omega, by simp only [jPrev]; omega, ?_⟩
        intro d hd
        simp only [jPrev] at hd
        interval_cases d
        simpa using hchar.symm
      | succ jj =>
        cases h0 : oldm jj with
        | zero =>
          refine ⟨by simp only [jPrev, h0]; omega,
            by simp only [jPrev, h0]; omega, ?_⟩
          intro d hd
          simp only [jPrev, h0] at hd
          interval_cases d
          simpa using hchar.symm
        | succ v =>
          have hnz : oldm jj ≠ 0 := by omega
          obtain ⟨p1, p2, p3, p4, p5⟩ := hold jj hnz
          refine ⟨by simp only [jPrev]; omega, by simp only [jPrev]; omega, ?_⟩
          intro d hd
          simp only [jPrev] at hd ⊢
          cases d with
          | zero => simpa using hchar.symm
          | succ d' =>
            have hd' : d' < oldm jj := by omega
            have e1 : i - (d' + 1) = i - 1 - d' := by omega
            have e2 : jj + 1 - (d' + 1) = jj - d' := by omega
            rw [e1, e2]
            exact p5 d' hd'
    have hm' : MapInvP a b alo blo bhi i
        (Function.update newm j (jPrev oldm j + 1)) := by
      intro x hx
      by_cases hxj : x = j
      · subst hxj
        rw [Function.update_same] at hx ⊢
        exact ⟨hblo, hbhi, hkfacts.1, hkfacts.2.1, hkfacts.2.2⟩
      · rw [Function.update_noteq hxj] at hx ⊢
        exact hm x hx
    have hb' : BestInv a b alo ahi blo bhi
        (if best.2.2 < jPrev oldm j + 1 then
          (i + 1 - (jPrev oldm j + 1), j + 1 - (jPrev oldm j + 1),
            jPrev oldm j + 1)
        else best) := by
      by_cases hlt : best.2.2 < jPrev oldm j + 1
      · rw [if_pos hlt]
        right
        obtain ⟨hk1, hk2, hk3⟩ := hkfacts
        refine ⟨show alo ≤ i + 1 - (jPrev oldm j + 1) by omega,
          show i + 1 - (jPrev oldm j + 1) + (jPrev oldm j + 1) ≤ ahi by omega,
          show blo ≤ j + 1 - (jPrev oldm j + 1) by omega,
          show j + 1 - (jPrev oldm j + 1) + (jPrev oldm j + 1) ≤ bhi by omega,
          show 1 ≤ jPrev oldm j + 1 by omega, ?_⟩
        intro d hd
        have hd' : d < jPrev oldm j + 1 := hd
        show a.getD (i + 1 - (jPrev oldm j + 1) + d) ' '
          = b.getD (j + 1 - (jPrev oldm j + 1) + d) ' '
        have e1 : i + 1 - (jPrev oldm j + 1) + d = i - (jPrev oldm j - d) := by
          omega
        have e2 : j + 1 - (jPrev oldm j + 1) + d = j - (jPrev oldm j - d) := by
          omega
        rw [e1, e2]
        exact hk3 (jPrev oldm j - d) (by omega)
      · rw [if_neg hlt]
        exact hb
    have := ih (fun x hx => hjs x (List.mem_cons_of_mem _ hx)) _ _ hm' hb'
    simpa [flmInner] using this

theorem b2j_mem_char (b : List Char) (c : Char) (j : Nat)
    (h : j ∈ b2j b c) : b.getD j ' ' = c := by
  unfold b2j at h
  by_cases hp : isPopular b c
  · simp [hp] at h
  · simp only [hp, if_neg, Bool.false_eq_true, not_false_iff] at h
    unfold positions at h
    have := List.of_mem_filter h
    simp only [decide_eq_true_eq] at this
    rw [List.getD_eq_getElem?_getD, this]
    rfl

theorem flmRows_inv (a b : List Char) (alo ahi blo bhi : Nat) :
    ∀ cnt i m best, alo ≤ i → i + cnt ≤ ahi →
      PrevMapInv a b alo blo bhi i m →
      BestInv a b alo ahi blo bhi best →
      BestInv a b alo ahi blo bhi
        (flmRows a b blo bhi (List.range' i cnt) (m, best)).2 := by
  intro cnt
  induction cnt with
  | zero => intro i m best _ _ _ hb; simpa [flmRows] using hb
  | succ n ihn =>
    intro i m best hia hcnt hm hb
    rw [List.range'_succ]
    simp only [flmRows]
    have hjs : ∀ j ∈ (b2j b (a.getD i ' ')).filter
        (fun j => decide (blo ≤ j) && decide (j < bhi)),
        blo ≤ j ∧ j < bhi ∧ b.getD j ' ' = a.getD i ' ' := by
      intro j hj
      have h1 := List.of_mem_filter hj
      have h2 := List.mem_of_mem_filter hj
      simp only [Bool.and_eq_true, decide_eq_true_eq] at h1
      exact ⟨h1.1, h1.2, b2j_mem_char b _ j h2⟩
    have hinner := flmInner_inv a b alo ahi blo bhi i hia (by omega) m hm _
      hjs (fun _ => 0) best (by intro j hj; simp at hj) hb
    have hprev := mapInvP_to_prev a b alo blo bhi i _ hinner.1
    exact ihn (i + 1) _ _ (by omega) (by omega) hprev hinner.2

theorem extendBack_pres (a b : List Char) (alo ahi blo bhi : Nat) :
    ∀ bi bj bs, FlmOk a b alo ahi blo bhi (bi, bj, bs) →
      FlmOk a b alo ahi blo bhi (extendBack a b alo blo bi bj bs) := by
  intro bi
  induction bi using Nat.strong_induction_on with
  | _ bi ih =>
    intro bj bs hok
    rw [extendBack]
    split
    · rename_i h
      obtain ⟨h1, h2, h3⟩ := h
      refine ih (bi - 1) (by omega) (bj - 1) (bs + 1) ?_
      obtain ⟨hcase, hsl⟩ := hok
      have hsl' : ∀ d < bs, a.getD (bi + d) ' ' = b.getD (bj + d) ' ' := hsl
      have hbounds : alo ≤ bi - 1 ∧ bi - 1 + (bs + 1) ≤ ahi ∧ blo ≤ bj - 1 ∧
          bj - 1 + (bs + 1) ≤ bhi ∧ 1 ≤ bs + 1 := by
        rcases hcase with ⟨e1, e2, e3⟩ | hf
        · have e1' : bi = alo := e1
          omega
        · have f1 : alo ≤ bi := hf.1
          have f2 : bi + bs ≤ ahi := hf.2.1
          have f3 : blo ≤ bj := hf.2.2.1
          have f4 : bj + bs ≤ bhi := hf.2.2.2.1
          omega
      refine ⟨Or.inr ⟨hbounds.1, hbounds.2.1, hbounds.2.2.1,
        hbounds.2.2.2.1, hbounds.2.2.2.2⟩, ?_⟩
      intro d hd
      have hd' : d < bs + 1 := hd
      show a.getD (bi - 1 + d) ' ' = b.getD (bj - 1 + d) ' '
      cases d with
      | zero => simpa using h3
      | succ d' =>
        have e1 : bi - 1 + (d' + 1) = bi + d' := by omega
        have e2 : bj - 1 + (d' + 1) = bj + d' := by omega
        rw [e1, e2]
        exact hsl' d' (by omega)
    · exact hok

theorem extendFwd_pres (a b : List Char) (alo ahi blo bhi bi bj : Nat) :
    ∀ n bs, n = ahi - (bi + bs) →
      FlmOk a b alo ahi blo bhi (bi, bj, bs) →
      FlmOk a b alo ahi blo bhi (extendFwd a b ahi bhi bi bj bs) := by
  intro n
  induction n using Nat.strong_induction_on with
  | _ n ih =>
    intro bs hn hok
    rw [extendFwd]
    split
    · rename_i h
      obtain ⟨h1, h2, h3⟩ := h
      refine ih (ahi - (bi + bs + 1)) (by omega) (bs + 1) rfl ?_
      obtain ⟨hcase, hsl⟩ := hok
      have hsl' : ∀ d < bs, a.getD (bi + d) ' ' = b.getD (bj + d) ' ' := hsl
      have hbounds : alo ≤ bi ∧ bi + (bs + 1) ≤ ahi ∧ blo ≤ bj ∧
          bj + (bs + 1) ≤ bhi ∧ 1 ≤ bs + 1 := by
        rcases hcase with ⟨e1, e2, e3⟩ | hf
        · have e1' : bi = alo := e1
          have e2' : bj = blo := e2
          omega
        · have f1 : alo ≤ bi := hf.1
          have f3 : blo ≤ bj := hf.2.2.1
          omega
      refine ⟨Or.inr ⟨hbounds.1, hbounds.2.1, hbounds.2.2.1,
        hbounds.2.2.2.1, hbounds.2.2.2.2⟩, ?_⟩
      intro d hd
      have hd' : d < bs + 1 := hd
      show a.getD (bi + d) ' ' = b.getD (bj + d) ' '
      by_cases hdb : d < bs
      · exact hsl' d hdb
      · have : d = bs := by omega
        subst this
        exact h3
    · exact hok

/-- `find_longest_match` returns a match with valid bounds and equal
matched slices. -/
theorem find_longest_match_ok (a b : List Char) (alo ahi blo bhi : Nat) :
    FlmOk a b alo ahi blo bhi (find_longest_match a b alo ahi blo bhi) := by
  unfold find_longest_match
  have hbest : BestInv a b alo ahi blo bhi
      (flmRows a b blo bhi (List.range' alo (ahi - alo))
        (fun _ => 0, alo, blo, 0)).2 := by
    by_cases halo : alo ≤ ahi
    · exact flmRows_inv a b alo ahi blo bhi (ahi - alo) alo _ _
        (le_refl _) (by omega)
        (by intro j hj; simp at hj) (Or.inl rfl)
    · have : ahi - alo = 0 := by omega
      rw [this]
      simp only [List.range', flmRows]
      exact Or.inl rfl
  have hok1 : FlmOk a b alo ahi blo bhi
      (flmRows a b blo bhi (List.range' alo (ahi - alo))
        (fun _ => 0, alo, blo, 0)).2 := by
    rcases hbest with h | ⟨f1, f2, f3, f4, f5, f6⟩
    · rw [h]
      refine ⟨Or.inl ⟨rfl, rfl, rfl⟩, ?_⟩
      intro d hd
      have : d < 0 := hd
      omega
    · exact ⟨Or.inr ⟨f1, f2, f3, f4, f5⟩, f6⟩
  have hok2 := extendBack_pres a b alo ahi blo bhi _ _ _ hok1
  exact extendFwd_pres a b alo ahi blo bhi _ _ _ _ rfl hok2

/-- The queue loop of `get_matching_blocks`, realized as in-order
recursion around each longest match; the source's final `sort` returns
exactly this in-order list. -/
def blocksRec (a b : List Char) (alo ahi blo bhi : Nat) :
    List (Nat × Nat × Nat) :=
  match hT : find_longest_match a b alo ahi blo bhi with
  | (bi, bj, k) =>
    if hk : k = 0 then []
    else
      blocksRec a b alo bi blo bj
        ++ (bi, bj, k) :: blocksRec a b (bi + k) ahi (bj + k) bhi
termination_by (ahi - alo) + (bhi - blo)
decreasing_by
  · have hok := find_longest_match_ok a b alo ahi blo bhi
    rw [hT] at hok
    rcases hok.1 with ⟨e1, e2, e3⟩ | ⟨f1, f2, f3, f4, f5⟩
    · exact absurd e3 hk
    · simp only at f1 f2 f3 f4 f5
      omega
  · have hok := find_longest_match_ok a b alo ahi blo bhi
    rw [hT] at hok
    rcases hok.1 with ⟨e1, e2, e3⟩ | ⟨f1, f2, f3, f4, f5⟩
    · exact absurd e3 hk
    · simp only at f1 f2 f3 f4 f5
      omega

/-- The adjacent-block coalescing loop of `get_matching_blocks`
(`i1, j1, k1` is the pending block). -/
def collapseLoop (i1 j1 k1 : Nat) :
    List (Nat × Nat × Nat) → List (Nat × Nat × Nat)
  | [] => if k1 ≠ 0 then [(i1, j1, k1)] else []
  | (i2, j2, k2) :: rest =>
    if i1 + k1 = i2 ∧ j1 + k1 = j2 then collapseLoop i1 j1 (k1 + k2) rest
    else if k1 ≠ 0 then (i1, j1, k1) :: collapseLoop i2 j2 k2 rest
    else collapseLoop i2 j2 k2 rest

/-- `get_matching_blocks`: coalesced blocks plus the `(la, lb, 0)`
terminator. -/
def get_matching_blocks (a b : List Char) : List (Nat × Nat × Nat) :=
  collapseLoop 0 0 0 (blocksRec a b 0 a.length 0 b.length)
    ++ [(a.length, b.length, 0)]

/-- Opcode tags of `get_opcodes`. -/
inductive OpTag
  | equal
  | del
  | ins
  | replace
deriving DecidableEq

/-- An opcode `(tag, i1, i2, j1, j2)`. -/
abbrev Opcode := OpTag × Nat × Nat × Nat × Nat

/-- The opcode-emitting loop of `get_opcodes`. -/
def opcodesLoop : Nat → Nat → List (Nat × Nat × Nat) → List Opcode
  | _, _, [] => []
  | i, j, (ai, bj, size) :: rest =>
    (if i < ai ∧ j < bj then [(OpTag.replace, i, ai, j, bj)]
      else if i < ai then [(OpTag.del, i, ai, j, bj)]
      else if j < bj then [(OpTag.ins, i, ai, j, bj)]
      else [])
    ++ (if size ≠ 0 then [(OpTag.equal, ai, ai + size, bj, bj + size)]
      else [])
    ++ opcodesLoop (ai + size) (bj + size) rest

/-- `SequenceMatcher(a=..., b=...).get_opcodes()`. -/
def get_opcodes (a b : List Char) : List Opcode :=
  opcodesLoop 0 0 (get_matching_blocks a b)

/- Self-alignment `align(a, a)` (claim C4). -/

/-- Run length of consecutive non-popular characters ending at `x`: the
diagonal `j2len` value when `a` is compared with itself. -/
def selfRun (a : List Char) : Nat → Nat
  | 0 => if isPopular a (a.getD 0 ' ') then 0 else 1
  | x + 1 => if isPopular a (a.getD (x + 1) ' ') then 0 else selfRun a x + 1

/-- Bound on the previous row's map entries in the self comparison. -/
def prevB (a : List Char) : Nat → Nat
  | 0 => 0
  | x + 1 => selfRun a x

theorem selfRun_pop (a : List Char) (x : Nat)
    (h : isPopular a (a.getD x ' ') = true) : selfRun a x = 0 := by
  cases x with
  | zero =>
    show (if isPopular a (a.getD 0 ' ') = true then 0 else 1) = 0
    rw [h]
    simp
  | succ y =>
    show (if isPopular a (a.getD (y + 1) ' ') = true then 0
      else selfRun a y + 1) = 0
    rw [h]
    simp

theorem selfRun_nonpop_zero (a : List Char)
    (h : isPopular a (a.getD 0 ' ') = false) : selfRun a 0 = 1 := by
  show (if isPopular a (a.getD 0 ' ') = true then 0 else 1) = 1
  rw [h]
  simp

theorem selfRun_nonpop_succ (a : List Char) (x : Nat)
    (h : isPopular a (a.getD (x + 1) ' ') = false) :
    selfRun a (x + 1) = selfRun a x + 1 := by
  show (if isPopular a (a.getD (x + 1) ' ') = true then 0
    else selfRun a x + 1) = selfRun a x + 1
  rw [h]
  simp

theorem selfRun_eq (a : List Char) (i : Nat)
    (h : isPopular a (a.getD i ' ') = false) :
    selfRun a i = prevB a i + 1 := by
  cases i with
  | zero => rw [selfRun_nonpop_zero a h]; rfl
  | succ x => rw [selfRun_nonpop_succ a x h]; rfl

/-- Pointwise description of the map built by `flmInner`. -/
theorem flmInner_map (i : Nat) (oldm : Nat → Nat) :
    ∀ js (newm : Nat → Nat) best x,
      (flmInner i oldm js newm best).1 x
        = if x ∈ js then jPrev oldm x + 1 else newm x := by
  intro js
  induction js with
  | nil => intro newm best x; simp [flmInner]
  | cons j js ih =>
    intro newm best x
    simp only [flmInner]
    rw [ih]
    by_cases hx : x ∈ js
    · simp [hx, List.mem_cons]
    · by_cases hxj : x = j
      · subst hxj
        simp [hx, Function.update_same]
      · simp [hx, hxj, Function.update_noteq hxj, List.mem_cons]

/-- `flmInner` leaves the best match untouched when no candidate chain
is strictly longer. -/
theorem flmInner_best_const (i : Nat) (oldm : Nat → Nat) :
    ∀ js (newm : Nat → Nat) (best : Nat × Nat × Nat),
      (∀ j ∈ js, jPrev oldm j + 1 ≤ best.2.2) →
      (flmInner i oldm js newm best).2 = best := by
  intro js
  induction js with
  | nil => intro newm best _; rfl
  | cons j js ih =>
    intro newm best hle
    have h1 : jPrev oldm j + 1 ≤ best.2.2 := hle j (List.mem_cons_self _ _)
    simp only [flmInner, if_neg (by omega : ¬ best.2.2 < jPrev oldm j + 1)]
    exact ih _ _ (fun x hx => hle x (List.mem_cons_of_mem _ hx))

theorem flmInner_append (i : Nat) (oldm : Nat → Nat) :
    ∀ l1 l2 (newm : Nat → Nat) best,
      flmInner i oldm (l1 ++ l2) newm best
        = flmInner i oldm l2 (flmInner i oldm l1 newm best).1
            (flmInner i oldm l1 newm best).2 := by
  intro l1
  induction l1 with
  | nil => intro l2 newm best; rfl
  | cons j l1 ih =>
    intro l2 newm best
    simp only [List.cons_append, flmInner]
    exact ih l2 _ _

theorem positions_mem (b : List Char) (c : Char) (j : Nat) :
    j ∈ positions b c ↔ j < b.length ∧ b[j]? = some c := by
  unfold positions
  constructor
  · intro h
    refine ⟨List.mem_range.mp (List.mem_of_mem_filter h), ?_⟩
    have := List.of_mem_filter h
    simpa using this
  · intro hc
    exact List.mem_filter.mpr ⟨List.mem_range.mpr hc.1, by simpa using hc.2⟩

theorem positions_split (b : List Char) (c : Char) (i : Nat)
    (hi : i < b.length) (hc : b[i]? = some c) :
    positions b c
      = (List.range' 0 i).filter (fun j => b[j]? = some c)
        ++ i :: (List.range' (i + 1) (b.length - i - 1)).filter
          (fun j => b[j]? = some c) := by
  unfold positions
  rw [List.range_eq_range']
  have hsplit : List.range' 0 b.length
      = List.range' 0 i ++ List.range' i (b.length - i) := by
    have h1 := List.range'_append_1 0 i (b.length - i)
    simp only [Nat.zero_add] at h1
    rw [show (b.length - i) + i = b.length from by omega] at h1
    exact h1.symm
  rw [hsplit, List.filter_append]
  congr 1
  have hstep : List.range' i (b.length - i)
      = i :: List.range' (i + 1) (b.length - i - 1) := by
    conv_lhs => rw [show b.length - i = (b.length - i - 1) + 1 from by omega]
    rw [List.range'_succ]
  rw [hstep]
  simp [List.filter_cons, hc]

theorem positions_getD (a : List Char) (c : Char) (j : Nat)
    (h : j ∈ positions a c) : a.getD j ' ' = c := by
  obtain ⟨h1, h2⟩ := (positions_mem a c j).mp h
  rw [List.getD_eq_getElem?_getD, h2]
  rfl

/-- Invariant of the previous row's map in the self comparison. -/
def SelfOld (a : List Char) (i : Nat) (m : Nat → Nat) : Prop :=
  (∀ j, m j ≤ selfRun a j) ∧ (∀ j, m j ≤ prevB a i) ∧
    (∀ x, i = x + 1 → isPopular a (a.getD x ' ') = false →
      m x = selfRun a x)


/-- Processing one non-popular row of the self comparison: the map
invariant advances one row, the best match stays diagonal, and the best
size dominates every run seen so far. -/
theorem selfRow_core (a : List Char) (i : Nat) (m : Nat → Nat)
    (best : Nat × Nat × Nat)
    (hpop : isPopular a (a.getD i ' ') = false)
    (hold : SelfOld a i m)
    (hdiag : best.1 = best.2.1)
    (hE : ∀ x < i, selfRun a x ≤ best.2.2) :
    ∀ L1 L2, (∀ j ∈ L1, j < i ∧ j ∈ positions a (a.getD i ' ')) →
      (∀ j ∈ L2, j ∈ positions a (a.getD i ' ')) →
      SelfOld a (i + 1) (flmInner i m (L1 ++ i :: L2) (fun _ => 0) best).1 ∧
      (flmInner i m (L1 ++ i :: L2) (fun _ => 0) best).2.1
        = (flmInner i m (L1 ++ i :: L2) (fun _ => 0) best).2.2.1 ∧
      (∀ x < i + 1, selfRun a x
        ≤ (flmInner i m (L1 ++ i :: L2) (fun _ => 0) best).2.2.2) := by
  intro L1 L2 hL1 hL2
  have hpospop : ∀ j ∈ positions a (a.getD i ' '),
      isPopular a (a.getD j ' ') = false := by
    intro j hj
    rw [positions_getD a _ j hj]
    exact hpop
  have hkA : ∀ j ∈ positions a (a.getD i ' '),
      jPrev m j + 1 ≤ selfRun a j := by
    intro j hj
    cases j with
    | zero =>
      have hz := hpospop 0 hj
      simp only [jPrev]
      rw [selfRun_nonpop_zero a hz]
    | succ jj =>
      have hchj := hpospop (jj + 1) hj
      have h1 : selfRun a (jj + 1) = selfRun a jj + 1 :=
        selfRun_nonpop_succ a jj hchj
      have h2 : m jj ≤ selfRun a jj := hold.1 jj
      simp only [jPrev]
      omega
  have hsr := selfRun_eq a i hpop
  have hkB : ∀ j, jPrev m j + 1 ≤ selfRun a i := by
    intro j
    cases j with
    | zero => simp only [jPrev]; omega
    | succ jj =>
      have h2 : m jj ≤ prevB a i := hold.2.1 jj
      simp only [jPrev]
      omega
  have hdiagk : jPrev m i + 1 = selfRun a i := by
    cases hi : i with
    | zero =>
      simp only [jPrev]
      rw [selfRun_nonpop_zero a (hi ▸ hpop)]
    | succ x =>
      have hx1 : selfRun a (x + 1) = selfRun a x + 1 :=
        selfRun_nonpop_succ a x (hi ▸ hpop)
      have hmx : m x = selfRun a x := by
        by_cases hpx : isPopular a (a.getD x ' ') = false
        · exact hold.2.2 x hi hpx
        · rw [Bool.not_eq_false] at hpx
          have h0 : selfRun a x = 0 := selfRun_pop a x hpx
          have := hold.1 x
          omega
      simp only [jPrev]
      omega
  -- best is unchanged over L1
  have hb1 : (flmInner i m L1 (fun _ => 0) best).2 = best := by
    apply flmInner_best_const
    intro j hj
    exact le_trans (hkA j (hL1 j hj).2) (hE j (hL1 j hj).1)
  rw [flmInner_append, hb1]
  simp only [flmInner]
  set M1 := (flmInner i m L1 (fun _ => 0) best).1 with hM1def
  have hM1 : ∀ x, M1 x = if x ∈ L1 then jPrev m x + 1 else 0 := by
    intro x
    rw [hM1def, flmInner_map]
  set K := jPrev m i + 1 with hK
  set best2 : Nat × Nat × Nat :=
    if best.2.2 < K then (i + 1 - K, i + 1 - K, K) else best with hb2def
  have hdiag2 : best2.1 = best2.2.1 := by
    rw [hb2def]
    by_cases hlt : best.2.2 < K
    · rw [if_pos hlt]
    · rw [if_neg hlt]
      exact hdiag
  have hbs2 : selfRun a i ≤ best2.2.2 ∧ best.2.2 ≤ best2.2.2 := by
    rw [hb2def]
    by_cases hlt : best.2.2 < K
    · rw [if_pos hlt]
      constructor
      · show selfRun a i ≤ K
        omega
      · show best.2.2 ≤ K
        omega
    · rw [if_neg hlt]
      exact ⟨by omega, le_refl _⟩
  have hb3 : (flmInner i m L2 (Function.update M1 i K) best2).2 = best2 := by
    apply flmInner_best_const
    intro j hj
    exact le_trans (hkB j) hbs2.1
  have hmap : ∀ x, (flmInner i m L2 (Function.update M1 i K) best2).1 x
      = if x ∈ L2 then jPrev m x + 1
        else if x = i then K else if x ∈ L1 then jPrev m x + 1 else 0 := by
    intro x
    rw [flmInner_map]
    by_cases h2 : x ∈ L2
    · simp [h2]
    · rw [if_neg h2, if_neg h2]
      by_cases hxi : x = i
      · subst hxi
        rw [Function.update_same, if_pos rfl]
      · rw [Function.update_noteq hxi, if_neg hxi, hM1]
  rw [hb3]
  refine ⟨⟨?_, ?_, ?_⟩, hdiag2, ?_⟩
  · intro j
    rw [hmap j]
    by_cases h2 : j ∈ L2
    · simp only [h2, if_pos]
      exact hkA j (hL2 j h2)
    · rw [if_neg h2]
      by_cases hxi : j = i
      · subst hxi
        rw [if_pos rfl, hK]
        omega
      · rw [if_neg hxi]
        by_cases h1 : j ∈ L1
        · rw [if_pos h1]
          exact hkA j (hL1 j h1).2
        · rw [if_neg h1]
          exact Nat.zero_le _
  · intro j
    rw [hmap j]
    have hpb : prevB a (i + 1) = selfRun a i := rfl
    rw [hpb]
    by_cases h2 : j ∈ L2
    · simp only [h2, if_pos]
      exact hkB j
    · rw [if_neg h2]
      by_cases hxi : j = i
      · rw [if_pos hxi, hK]
        omega
      · rw [if_neg hxi]
        by_cases h1 : j ∈ L1
        · rw [if_pos h1]
          exact hkB j
        · rw [if_neg h1]
          exact Nat.zero_le _
  · intro x hx1 hx2
    have hxe : x = i := by omega
    subst hxe
    rw [hmap x]
    by_cases h2 : x ∈ L2
    · rw [if_pos h2, ← hK, hK]
      omega
    · rw [if_neg h2, if_pos rfl]
      omega
  · intro x hx
    by_cases hxi : x < i
    · exact le_trans (hE x hxi) hbs2.2
    · have : x = i := by omega
      subst this
      exact hbs2.1

/-- In the self comparison the running best match stays diagonal. -/
theorem selfRows_diag (a : List Char) :
    ∀ cnt i (m : Nat → Nat) (best : Nat × Nat × Nat),
      i + cnt = a.length →
      SelfOld a i m →
      best.1 = best.2.1 →
      (∀ x < i, selfRun a x ≤ best.2.2) →
      (flmRows a a 0 a.length (List.range' i cnt) (m, best)).2.1
        = (flmRows a a 0 a.length (List.range' i cnt) (m, best)).2.2.1 := by
  intro cnt
  induction cnt with
  | zero => intro i m best _ _ hd _; simpa [flmRows] using hd
  | succ n ihn =>
    intro i m best hlen hold hdiag hE
    rw [List.range'_succ]
    simp only [flmRows]
    by_cases hpop : isPopular a (a.getD i ' ') = true
    · -- popular character: empty candidate list, the row is a no-op
      have hjs : (b2j a (a.getD i ' ')).filter
          (fun j => decide (0 ≤ j) && decide (j < a.length)) = [] := by
        unfold b2j
        rw [if_pos hpop]
        rfl
      rw [hjs]
      have hstep : flmInner i m [] (fun _ => 0) best
          = ((fun _ => 0), best) := rfl
      rw [hstep]
      refine ihn (i + 1) (fun _ => 0) best (by omega) ?_ hdiag ?_
      · refine ⟨fun j => Nat.zero_le _, fun j => Nat.zero_le _, ?_⟩
        intro x hx hpop2
        exfalso
        have hxi : x = i := by omega
        rw [hxi, hpop] at hpop2
        simp at hpop2
      · intro x hx
        by_cases hxi : x < i
        · exact hE x hxi
        · have hxe : x = i := by omega
          subst hxe
          have h0 : selfRun a x = 0 := selfRun_pop a x hpop
          omega
    · -- non-popular: use the row lemma on the split occurrence list
      rw [Bool.not_eq_true] at hpop
      have hiN : i < a.length := by omega
      have hci : a[i]? = some (a.getD i ' ') := by
        have h1 : a[i]? = some a[i] := List.getElem?_eq_getElem hiN
        rw [h1, List.getD_eq_getElem?_getD, h1]
        rfl
      have hfilter : (b2j a (a.getD i ' ')).filter
          (fun j => decide (0 ≤ j) && decide (j < a.length))
          = positions a (a.getD i ' ') := by
        unfold b2j
        rw [if_neg (by rw [hpop]; exact Bool.false_ne_true)]
        apply List.filter_eq_self.mpr
        intro j hj
        have := ((positions_mem _ _ _).mp hj).1
        simp [this]
      rw [hfilter, positions_split a (a.getD i ' ') i hiN hci]
      have hL1 : ∀ j ∈ (List.range' 0 i).filter
          (fun j => a[j]? = some (a.getD i ' ')),
          j < i ∧ j ∈ positions a (a.getD i ' ') := by
        intro j hj
        have h1 := List.mem_of_mem_filter hj
        have h2 := List.of_mem_filter hj
        have h3 := (List.mem_range'_1).mp h1
        exact ⟨by omega, (positions_mem _ _ _).mpr ⟨by omega,
          by simpa using h2⟩⟩
      have hL2 : ∀ j ∈ (List.range' (i + 1) (a.length - i - 1)).filter
          (fun j => a[j]? = some (a.getD i ' ')),
          j ∈ positions a (a.getD i ' ') := by
        intro j hj
        have h1 := List.mem_of_mem_filter hj
        have h2 := List.of_mem_filter hj
        have h3 := (List.mem_range'_1).mp h1
        exact (positions_mem _ _ _).mpr ⟨by omega, by simpa using h2⟩
      obtain ⟨hold', hdiag', hE'⟩ :=
        selfRow_core a i m best hpop hold hdiag hE _ _ hL1 hL2
      exact ihn (i + 1) _ _ (by omega) hold' hdiag' hE'

theorem extendBack_self (a : List Char) :
    ∀ t s, extendBack a a 0 0 t t s = (0, 0, s + t) := by
  intro t
  induction t with
  | zero =>
    intro s
    unfold extendBack
    rw [dif_neg (by omega), Nat.add_zero]
  | succ t ih =>
    intro s
    unfold extendBack
    rw [dif_pos ⟨by omega, by omega, rfl⟩]
    rw [show t + 1 - 1 = t from by omega, ih (s + 1)]
    rw [show s + 1 + t = s + (t + 1) from by omega]

theorem extendFwd_self (a : List Char) :
    ∀ k v, k = a.length - v → v ≤ a.length →
      extendFwd a a a.length a.length 0 0 v = (0, 0, a.length) := by
  intro k
  induction k with
  | zero =>
    intro v hk hv
    have hve : v = a.length := by omega
    subst hve
    unfold extendFwd
    rw [dif_neg (by omega)]
  | succ kk ih =>
    intro v hk hv
    have hvlt : v < a.length := by omega
    unfold extendFwd
    rw [dif_pos ⟨by omega, by omega, rfl⟩]
    exact ih (v + 1) (by omega) (by omega)

/-- `find_longest_match(0, n, 0, n)` on `(a, a)` is the full diagonal. -/
theorem flm_self (a : List Char) :
    find_longest_match a a 0 a.length 0 a.length
      = (0, 0, a.length) := by
  set F := flmRows a a 0 a.length (List.range' 0 (a.length - 0))
    ((fun _ => (0 : Nat)), 0, 0, 0) with hF
  have hdef : find_longest_match a a 0 a.length 0 a.length
      = extendFwd a a a.length a.length
          (extendBack a a 0 0 F.2.1 F.2.2.1 F.2.2.2).1
          (extendBack a a 0 0 F.2.1 F.2.2.1 F.2.2.2).2.1
          (extendBack a a 0 0 F.2.1 F.2.2.1 F.2.2.2).2.2 := rfl
  have hdiagF : F.2.1 = F.2.2.1 := by
    rw [hF]
    refine selfRows_diag a (a.length - 0) 0 (fun _ => 0) (0, 0, 0)
      (by omega) ?_ rfl ?_
    · exact ⟨fun j => Nat.zero_le _, fun j => Nat.zero_le _,
        fun x hx _ => absurd hx (by omega)⟩
    · intro x hx
      exact absurd hx (by omega)
  have hbounds : BestInv a a 0 a.length 0 a.length F.2 := by
    rw [hF]
    exact flmRows_inv a a 0 a.length 0 a.length (a.length - 0) 0 _ _
      (Nat.le_refl _) (by omega)
      (fun j hj => absurd rfl hj) (Or.inl rfl)
  have hsum : F.2.1 + F.2.2.2 ≤ a.length := by
    rcases hbounds with h | hf
    · rw [h]
      simp
    · exact hf.2.1
  have hback : extendBack a a 0 0 F.2.1 F.2.2.1 F.2.2.2
      = (0, 0, F.2.2.2 + F.2.1) := by
    rw [← hdiagF]
    exact extendBack_self a F.2.1 F.2.2.2
  rw [hdef, hback]
  exact extendFwd_self a (a.length - (F.2.2.2 + F.2.1))
    (F.2.2.2 + F.2.1) rfl (by omega)

theorem flm_degenerate (a b : List Char) (x y : Nat) :
    find_longest_match a b x x y y = (x, y, 0) := by
  set F := flmRows a b y y (List.range' x (x - x))
    ((fun _ => (0 : Nat)), x, y, 0) with hF
  have hdef : find_longest_match a b x x y y
      = extendFwd a b x y (extendBack a b x y F.2.1 F.2.2.1 F.2.2.2).1
          (extendBack a b x y F.2.1 F.2.2.1 F.2.2.2).2.1
          (extendBack a b x y F.2.1 F.2.2.1 F.2.2.2).2.2 := rfl
  have hFval : F = ((fun _ => (0 : Nat)), x, y, 0) := by
    rw [hF, Nat.sub_self]
    rfl
  rw [hdef, hFval]
  have hb : extendBack a b x y x y 0 = (x, y, 0) := by
    unfold extendBack
    rw [dif_neg (fun h => absurd h.1 (lt_irrefl x))]
  show extendFwd a b x y (extendBack a b x y x y 0).1
    (extendBack a b x y x y 0).2.1 (extendBack a b x y x y 0).2.2
    = (x, y, 0)
  rw [hb]
  show extendFwd a b x y x y 0 = (x, y, 0)
  unfold extendFwd
  rw [dif_neg (fun h => absurd h.1 (by omega))]

theorem blocksRec_degenerate (a b : List Char) (x y : Nat) :
    blocksRec a b x x y y = [] := by
  unfold blocksRec
  rw [flm_degenerate]
  rfl

theorem blocks_self (a : List Char) (h : a ≠ []) :
    blocksRec a a 0 a.length 0 a.length = [(0, 0, a.length)] := by
  have hn : a.length ≠ 0 := fun h0 => h (List.eq_nil_of_length_eq_zero h0)
  unfold blocksRec
  rw [flm_self]
  rw [dif_neg (show ¬((0, 0, a.length) : Nat × Nat × Nat).2.2 = 0 from hn)]
  show blocksRec a a 0 0 0 0 ++ (0, 0, a.length)
      :: blocksRec a a (0 + a.length) a.length (0 + a.length) a.length
    = [(0, 0, a.length)]
  rw [Nat.zero_add, blocksRec_degenerate a a 0 0,
    blocksRec_degenerate a a a.length a.length]
  rfl

theorem matching_blocks_self (a : List Char) (h : a ≠ []) :
    get_matching_blocks a a
      = [(0, 0, a.length), (a.length, a.length, 0)] := by
  have hn : a.length ≠ 0 := fun h0 => h (List.eq_nil_of_length_eq_zero h0)
  unfold get_matching_blocks
  rw [blocks_self a h]
  simp [collapseLoop, hn]

/-- C4 (amended): for every non-empty text `a`, `align(a, a)` yields
exactly one `equal` opcode spanning `[0, len a)` on both sides. -/
theorem spec_C4_align_self (a : List Char) (h : a ≠ []) :
    get_opcodes a a = [(OpTag.equal, 0, a.length, 0, a.length)] := by
  have hn : a.length ≠ 0 := fun h0 => h (List.eq_nil_of_length_eq_zero h0)
  unfold get_opcodes
  rw [matching_blocks_self a h]
  simp [opcodesLoop, hn]

/-- Counterexample to C4 as stated: on the empty text, `align(a, a)`
yields no opcode at all rather than one `equal` opcode spanning `a`. -/
theorem spec_C4_counterexample :
    get_opcodes ([] : List Char) [] ≠ [(OpTag.equal, 0, 0, 0, 0)] := by
  have h1 : get_opcodes ([] : List Char) [] = [] := by
    unfold get_opcodes get_matching_blocks
    rw [show ([] : List Char).length = 0 from rfl, blocksRec_degenerate]
    simp [collapseLoop, opcodesLoop]
  rw [h1]
  simp

/-- Witness for the amended C4 at the one-character text `"x"`. -/
theorem spec_C4_witness :
    (['x'] : List Char) ≠ [] ∧
      get_opcodes ['x'] ['x'] = [(OpTag.equal, 0, 1, 0, 1)] :=
  ⟨by decide, spec_C4_align_self ['x'] (by decide)⟩

/- Merge View Builder round-trip (claim C9). -/

theorem pySlice_zero (s : List Char) (x : Nat) : pySlice s x (x + 0) = [] := by
  simp [pySlice]

theorem drop_eq_slice_append (s : List Char) (i1 i2 : Nat) (h : i1 ≤ i2) :
    s.drop i1 = pySlice s i1 i2 ++ s.drop i2 := by
  unfold pySlice
  conv_lhs => rw [← List.take_append_drop (i2 - i1) (s.drop i1)]
  congr 1
  rw [List.drop_drop]
  congr 1
  omega

theorem slice_eq_of_getD (a b : List Char) (bi bj k : Nat)
    (ha : bi + k ≤ a.length) (hb : bj + k ≤ b.length)
    (h : ∀ d < k, a.getD (bi + d) ' ' = b.getD (bj + d) ' ') :
    pySlice a bi (bi + k) = pySlice b bj (bj + k) := by
  apply List.ext_getElem
  · simp [pySlice]
    omega
  · intro n h1 h2
    simp only [pySlice] at h1 h2 ⊢
    rw [List.getElem_take, List.getElem_drop, List.getElem_take,
      List.getElem_drop]
    have hn : n < k := by
      simp at h1
      omega
    have := h n hn
    rwa [List.getD_eq_getElem a ' ' (by omega),
      List.getD_eq_getElem b ' ' (by omega)] at this

/-- Chain property of a matching-block list inside the window
`[i, ahi) × [j, bhi)`: blocks are in order, and each block's two slices
are equal. -/
def BChain (a b : List Char) : Nat → Nat → Nat → Nat →
    List (Nat × Nat × Nat) → Prop
  | i, j, ahi, bhi, [] => i ≤ ahi ∧ j ≤ bhi
  | i, j, ahi, bhi, (bi, bj, k) :: rest =>
    i ≤ bi ∧ j ≤ bj ∧
    pySlice a bi (bi + k) = pySlice b bj (bj + k) ∧
    BChain a b (bi + k) (bj + k) ahi bhi rest

theorem bchain_le (a b : List Char) : ∀ L i j m n,
    BChain a b i j m n L → i ≤ m ∧ j ≤ n := by
  intro L
  induction L with
  | nil => intro i j m n h; exact h
  | cons blk rest ih =>
    obtain ⟨bi, bj, k⟩ := blk
    intro i j m n h
    obtain ⟨h1, h2, h3, h4⟩ := h
    have := ih (bi + k) (bj + k) m n h4
    exact ⟨by omega, by omega⟩

theorem bchain_mono_start (a b : List Char) (L : List (Nat × Nat × Nat))
    (i' j' i j m n : Nat) (hi : i' ≤ i) (hj : j' ≤ j)
    (h : BChain a b i j m n L) : BChain a b i' j' m n L := by
  cases L with
  | nil =>
    obtain ⟨h1, h2⟩ := h
    exact ⟨by omega, by omega⟩
  | cons blk rest =>
    obtain ⟨bi, bj, k⟩ := blk
    obtain ⟨h1, h2, h3, h4⟩ := h
    exact ⟨by omega, by omega, h3, h4⟩

theorem bchain_append (a b : List Char) : ∀ L i j m n p q L',
    BChain a b i j m n L → BChain a b m n p q L' →
    BChain a b i j p q (L ++ L') := by
  intro L
  induction L with
  | nil =>
    intro i j m n p q L' h1 h2
    exact bchain_mono_start a b L' i j m n p q h1.1 h1.2 h2
  | cons blk rest ih =>
    obtain ⟨bi, bj, k⟩ := blk
    intro i j m n p q L' h1 h2
    exact ⟨h1.1, h1.2.1, h1.2.2.1, ih (bi + k) (bj + k) m n p q L' h1.2.2.2 h2⟩

theorem blocksRec_bchain (a b : List Char) : ∀ N alo ahi blo bhi,
    (ahi - alo) + (bhi - blo) ≤ N → alo ≤ ahi → blo ≤ bhi →
    ahi ≤ a.length → bhi ≤ b.length →
    BChain a b alo blo ahi bhi (blocksRec a b alo ahi blo bhi) := by
  intro N
  induction N using Nat.strong_induction_on with
  | _ N ih =>
    intro alo ahi blo bhi hN hao hbo ha hb
    have hok := find_longest_match_ok a b alo ahi blo bhi
    rcases hT : find_longest_match a b alo ahi blo bhi with ⟨bi, bj, k⟩
    rw [hT] at hok
    unfold blocksRec
    rw [hT]
    show BChain a b alo blo ahi bhi
      (if hk : k = 0 then []
        else blocksRec a b alo bi blo bj
          ++ (bi, bj, k) :: blocksRec a b (bi + k) ahi (bj + k) bhi)
    by_cases hk : k = 0
    · rw [dif_pos hk]
      exact ⟨hao, hbo⟩
    · rw [dif_neg hk]
      obtain ⟨hor, hpt⟩ := hok
      rcases hor with ⟨e1, e2, e3⟩ | ⟨f1, f2, f3, f4, f5⟩
      · exact absurd e3 hk
      · have f1' : alo ≤ bi := f1
        have f2' : bi + k ≤ ahi := f2
        have f3' : blo ≤ bj := f3
        have f4' : bj + k ≤ bhi := f4
        have f5' : 1 ≤ k := f5
        have hslice : pySlice a bi (bi + k) = pySlice b bj (bj + k) :=
          slice_eq_of_getD a b bi bj k (by omega) (by omega)
            (fun d hd => hpt d hd)
        have hleft : BChain a b alo blo bi bj (blocksRec a b alo bi blo bj) :=
          ih (N - 1) (by omega) alo bi blo bj (by omega) f1' f3'
            (by omega) (by omega)
        have hright : BChain a b (bi + k) (bj + k) ahi bhi
            (blocksRec a b (bi + k) ahi (bj + k) bhi) :=
          ih (N - 1) (by omega) (bi + k) ahi (bj + k) bhi (by omega)
            f2' f4' ha hb
        exact bchain_append a b (blocksRec a b alo bi blo bj) alo blo bi bj
          ahi bhi ((bi, bj, k) :: blocksRec a b (bi + k) ahi (bj + k) bhi)
          hleft ⟨le_refl bi, le_refl bj, hslice, hright⟩

/-- Chain property of the block list handed to the opcode loop: blocks
in order within the two whole texts, equal slices, and the running
position ends exactly at `(len a, len b)`. -/
def TChain (a b : List Char) : Nat → Nat → List (Nat × Nat × Nat) → Prop
  | i, j, [] => i = a.length ∧ j = b.length
  | i, j, (bi, bj, k) :: rest =>
    i ≤ bi ∧ j ≤ bj ∧ bi + k ≤ a.length ∧ bj + k ≤ b.length ∧
    pySlice a bi (bi + k) = pySlice b bj (bj + k) ∧
    TChain a b (bi + k) (bj + k) rest

theorem collapse_tchain (a b : List Char) : ∀ L i1 j1 k1 i j,
    i ≤ i1 → j ≤ j1 →
    i1 + k1 ≤ a.length → j1 + k1 ≤ b.length →
    pySlice a i1 (i1 + k1) = pySlice b j1 (j1 + k1) →
    BChain a b (i1 + k1) (j1 + k1) a.length b.length L →
    TChain a b i j
      (collapseLoop i1 j1 k1 L ++ [(a.length, b.length, 0)]) := by
  intro L
  induction L with
  | nil =>
    intro i1 j1 k1 i j hi hj ha hb heq hbc
    show TChain a b i j
      ((if k1 ≠ 0 then [(i1, j1, k1)] else []) ++ [(a.length, b.length, 0)])
    by_cases hk : k1 ≠ 0
    · rw [if_pos hk]
      refine ⟨hi, hj, ha, hb, heq, ?_⟩
      refine ⟨ha, hb, by omega, by omega, ?_, by omega, by omega⟩
      rw [pySlice_zero, pySlice_zero]
    · rw [if_neg hk]
      exact ⟨by omega, by omega, by omega, by omega,
        by rw [pySlice_zero, pySlice_zero], by omega, by omega⟩
  | cons blk rest ih =>
    obtain ⟨i2, j2, k2⟩ := blk
    intro i1 j1 k1 i j hi hj ha hb heq hbc
    obtain ⟨h1, h2, heq2, hrest⟩ := hbc
    have hend := bchain_le a b rest (i2 + k2) (j2 + k2) a.length b.length hrest
    show TChain a b i j
      ((if i1 + k1 = i2 ∧ j1 + k1 = j2 then collapseLoop i1 j1 (k1 + k2) rest
        else if k1 ≠ 0 then (i1, j1, k1) :: collapseLoop i2 j2 k2 rest
        else collapseLoop i2 j2 k2 rest) ++ [(a.length, b.length, 0)])
    by_cases hadj : i1 + k1 = i2 ∧ j1 + k1 = j2
    · rw [if_pos hadj]
      have e1 : i1 + (k1 + k2) = i2 + k2 := by omega
      have e2 : j1 + (k1 + k2) = j2 + k2 := by omega
      have hmerged : pySlice a i1 (i1 + (k1 + k2))
          = pySlice b j1 (j1 + (k1 + k2)) := by
        rw [e1, e2,
          pySlice_split a i1 i2 (i2 + k2) (by omega) (by omega),
          pySlice_split b j1 j2 (j2 + k2) (by omega) (by omega)]
        have p1 : pySlice a i1 i2 = pySlice b j1 j2 := by
          rw [show i2 = i1 + k1 by omega, show j2 = j1 + k1 by omega]
          exact heq
        rw [p1, heq2]
      have hrest' : BChain a b (i1 + (k1 + k2)) (j1 + (k1 + k2))
          a.length b.length rest := by
        rw [e1, e2]
        exact hrest
      exact ih i1 j1 (k1 + k2) i j hi hj (by omega) (by omega) hmerged hrest'
    · rw [if_neg hadj]
      by_cases hk : k1 ≠ 0
      · rw [if_pos hk]
        exact ⟨hi, hj, ha, hb, heq,
          ih i2 j2 k2 (i1 + k1) (j1 + k1) h1 h2 (by omega) (by omega)
            heq2 hrest⟩
      · rw [if_neg hk]
        exact ih i2 j2 k2 i j (by omega) (by omega) (by omega) (by omega)
          heq2 hrest

theorem get_matching_blocks_tchain (a b : List Char) :
    TChain a b 0 0 (get_matching_blocks a b) := by
  unfold get_matching_blocks
  refine collapse_tchain a b (blocksRec a b 0 a.length 0 b.length)
    0 0 0 0 0 (le_refl 0) (le_refl 0) (by omega) (by omega)
    (by rw [pySlice_zero, pySlice_zero]) ?_
  exact blocksRec_bchain a b (a.length + b.length) 0 a.length 0 b.length
    (by omega) (by omega) (by omega) (le_refl _) (le_refl _)

/-- Validity chain of an opcode list: contiguous coverage of `a` and
`b` from the running position to the ends, with tag-specific
constraints (`equal` opcodes relate equal slices). -/
def OpsChain (a b : List Char) : Nat → Nat → List Opcode → Prop
  | i, j, [] => i = a.length ∧ j = b.length
  | i, j, (t, i1, i2, j1, j2) :: rest =>
    i1 = i ∧ j1 = j ∧ i1 ≤ i2 ∧ j1 ≤ j2 ∧ i2 ≤ a.length ∧ j2 ≤ b.length ∧
    (t = OpTag.equal → pySlice a i1 i2 = pySlice b j1 j2) ∧
    (t = OpTag.del → j1 = j2) ∧
    (t = OpTag.ins → i1 = i2) ∧
    OpsChain a b i2 j2 rest

theorem opsChain_gap (a b : List Char) (i j ai bj : Nat)
    (rest : List Opcode)
    (hia : i ≤ ai) (hjb : j ≤ bj) (ha : ai ≤ a.length) (hb : bj ≤ b.length)
    (hrest : OpsChain a b ai bj rest) :
    OpsChain a b i j
      ((if i < ai ∧ j < bj then [(OpTag.replace, i, ai, j, bj)]
        else if i < ai then [(OpTag.del, i, ai, j, bj)]
        else if j < bj then [(OpTag.ins, i, ai, j, bj)]
        else []) ++ rest) := by
  by_cases h1 : i < ai ∧ j < bj
  · rw [if_pos h1]
    exact ⟨rfl, rfl, by omega, by omega, ha, hb,
      fun ht => OpTag.noConfusion ht, fun ht => OpTag.noConfusion ht, fun ht => OpTag.noConfusion ht,
      hrest⟩
  · rw [if_neg h1]
    by_cases h2 : i < ai
    · rw [if_pos h2]
      have hj : j = bj := by omega
      subst hj
      exact ⟨rfl, rfl, by omega, le_refl j, ha, hb,
        fun ht => OpTag.noConfusion ht, fun _ => rfl, fun ht => OpTag.noConfusion ht, hrest⟩
    · by_cases h3 : j < bj
      · rw [if_neg h2, if_pos h3]
        have hi : i = ai := by omega
        subst hi
        exact ⟨rfl, rfl, le_refl i, by omega, ha, hb,
          fun ht => OpTag.noConfusion ht, fun ht => OpTag.noConfusion ht, fun _ => rfl, hrest⟩
      · rw [if_neg h2, if_neg h3]
        have hi : i = ai := by omega
        have hj : j = bj := by omega
        subst hi
        subst hj
        exact hrest

theorem opsChain_equal (a b : List Char) (ai bj size : Nat)
    (rest : List Opcode)
    (ha : ai + size ≤ a.length) (hb : bj + size ≤ b.length)
    (heq : pySlice a ai (ai + size) = pySlice b bj (bj + size))
    (hrest : OpsChain a b (ai + size) (bj + size) rest) :
    OpsChain a b ai bj
      ((if size ≠ 0 then [(OpTag.equal, ai, ai + size, bj, bj + size)]
        else []) ++ rest) := by
  by_cases hs : size ≠ 0
  · rw [if_pos hs]
    exact ⟨rfl, rfl, by omega, by omega, ha, hb, fun _ => heq,
      fun ht => OpTag.noConfusion ht, fun ht => OpTag.noConfusion ht, hrest⟩
  · rw [if_neg hs]
    have h0 : size = 0 := by omega
    subst h0
    exact hrest

theorem opcodesLoop_chain (a b : List Char) : ∀ blocks i j,
    TChain a b i j blocks → OpsChain a b i j (opcodesLoop i j blocks) := by
  intro blocks
  induction blocks with
  | nil =>
    intro i j h
    exact h
  | cons blk rest ih =>
    obtain ⟨ai, bj, size⟩ := blk
    intro i j h
    obtain ⟨hia, hjb, hba, hbb, heq, hrest⟩ := h
    have hassoc : opcodesLoop i j ((ai, bj, size) :: rest)
        = (if i < ai ∧ j < bj then [(OpTag.replace, i, ai, j, bj)]
            else if i < ai then [(OpTag.del, i, ai, j, bj)]
            else if j < bj then [(OpTag.ins, i, ai, j, bj)]
            else [])
          ++ ((if size ≠ 0 then [(OpTag.equal, ai, ai + size, bj, bj + size)]
            else [])
          ++ opcodesLoop (ai + size) (bj + size) rest) :=
      List.append_assoc _ _ _
    rw [hassoc]
    exact opsChain_gap a b i j ai bj _ hia hjb (by omega) (by omega)
      (opsChain_equal a b ai bj size _ hba hbb heq
        (ih (ai + size) (bj + size) hrest))

theorem get_opcodes_chain (a b : List Char) :
    OpsChain a b 0 0 (get_opcodes a b) :=
  opcodesLoop_chain a b (get_matching_blocks a b) 0 0
    (get_matching_blocks_tchain a b)

/-- Tag of a merged-buffer range ("del" or "ins" in the source). -/
inductive MTag
  | mdel
  | mins
deriving DecidableEq

/-- One pass of `_build_merged_from_original_and_modified`: walk the
opcodes with the running merged-buffer position `cur`, building the
merged pieces and the tag ranges.  A `del` entry carries the sentinel
`(-1, -1)`; an `ins` entry carries the `b`-side range `(j1, j2)`. -/
def buildMergedLoop (a b : List Char) :
    Nat → List Opcode → List Char × List (MTag × (Nat × Nat) × (Int × Int))
  | _, [] => ([], [])
  | cur, (OpTag.equal, i1, i2, _, _) :: rest =>
    (pySlice a i1 i2
        ++ (buildMergedLoop a b (cur + (pySlice a i1 i2).length) rest).1,
      (buildMergedLoop a b (cur + (pySlice a i1 i2).length) rest).2)
  | cur, (OpTag.del, i1, i2, _, _) :: rest =>
    (pySlice a i1 i2
        ++ (buildMergedLoop a b (cur + (pySlice a i1 i2).length) rest).1,
      (MTag.mdel, (cur, cur + (pySlice a i1 i2).length), ((-1 : Int), (-1 : Int)))
        :: (buildMergedLoop a b (cur + (pySlice a i1 i2).length) rest).2)
  | cur, (OpTag.ins, _, _, j1, j2) :: rest =>
    (pySlice b j1 j2
        ++ (buildMergedLoop a b (cur + (pySlice b j1 j2).length) rest).1,
      (MTag.mins, (cur, cur + (pySlice b j1 j2).length), ((j1 : Int), (j2 : Int)))
        :: (buildMergedLoop a b (cur + (pySlice b j1 j2).length) rest).2)
  | cur, (OpTag.replace, i1, i2, j1, j2) :: rest =>
    (pySlice a i1 i2
        ++ (pySlice b j1 j2
          ++ (buildMergedLoop a b
              (cur + (pySlice a i1 i2).length + (pySlice b j1 j2).length)
              rest).1),
      (MTag.mdel, (cur, cur + (pySlice a i1 i2).length), ((-1 : Int), (-1 : Int)))
        :: (MTag.mins,
            (cur + (pySlice a i1 i2).length,
              cur + (pySlice a i1 i2).length + (pySlice b j1 j2).length),
            ((j1 : Int), (j2 : Int)))
        :: (buildMergedLoop a b
            (cur + (pySlice a i1 i2).length + (pySlice b j1 j2).length)
            rest).2)

/-- `_build_merged_from_original_and_modified original modified`:
the merged text and the tag ranges. -/
def build_merged (a b : List Char) :
    List Char × List (MTag × (Nat × Nat) × (Int × Int)) :=
  buildMergedLoop a b 0 (get_opcodes a b)

/-- The merged-buffer spans of the insertion-tagged entries, in order. -/
def insSpansOf : List (MTag × (Nat × Nat) × (Int × Int)) → List (Nat × Nat)
  | [] => []
  | (MTag.mins, sp, _) :: rest => sp :: insSpansOf rest
  | (MTag.mdel, _, _) :: rest => insSpansOf rest

/-- The merged-buffer spans of the deletion-tagged entries, in order. -/
def delSpansOf : List (MTag × (Nat × Nat) × (Int × Int)) → List (Nat × Nat)
  | [] => []
  | (MTag.mdel, sp, _) :: rest => sp :: delSpansOf rest
  | (MTag.mins, _, _) :: rest => delSpansOf rest

/-- Delete from `s` (which represents the merged buffer from absolute
position `base` on) the listed spans, given in ascending absolute
coordinates. -/
def dropSpans (s : List Char) (base : Nat) :
    List (Nat × Nat) → List Char
  | [] => s
  | (st, en) :: rest =>
    s.take (st - base) ++ dropSpans (s.drop (en - base)) en rest

theorem dropSpans_ge (s₁ s₂ : List Char) (base : Nat)
    (spans : List (Nat × Nat))
    (h : ∀ p ∈ spans, base + s₁.length ≤ p.1 ∧ p.1 ≤ p.2) :
    dropSpans (s₁ ++ s₂) base spans
      = s₁ ++ dropSpans s₂ (base + s₁.length) spans := by
  cases spans with
  | nil => rfl
  | cons p rest =>
    obtain ⟨st, en⟩ := p
    have hp := h (st, en) (List.mem_cons_self _ _)
    have hp1 : base + s₁.length ≤ st := hp.1
    have hp2 : st ≤ en := hp.2
    show (s₁ ++ s₂).take (st - base)
        ++ dropSpans ((s₁ ++ s₂).drop (en - base)) en rest
      = s₁ ++ (s₂.take (st - (base + s₁.length))
        ++ dropSpans (s₂.drop (en - (base + s₁.length))) en rest)
    have h1 : (s₁ ++ s₂).take (st - base)
        = s₁ ++ s₂.take (st - base - s₁.length) := by
      rw [List.take_append_eq_append_take,
        List.take_of_length_le (by omega)]
    have h2 : (s₁ ++ s₂).drop (en - base)
        = s₂.drop (en - base - s₁.length) := by
      rw [List.drop_append_eq_append_drop,
        List.drop_eq_nil_of_le (by omega), List.nil_append]
    rw [h1, h2, List.append_assoc, Nat.sub_sub, Nat.sub_sub]

theorem dropSpans_cover (s₁ s₂ : List Char) (base : Nat)
    (rest : List (Nat × Nat)) :
    dropSpans (s₁ ++ s₂) base ((base, base + s₁.length) :: rest)
      = dropSpans s₂ (base + s₁.length) rest := by
  show (s₁ ++ s₂).take (base - base)
      ++ dropSpans ((s₁ ++ s₂).drop (base + s₁.length - base))
          (base + s₁.length) rest
    = dropSpans s₂ (base + s₁.length) rest
  rw [Nat.sub_self, Nat.add_sub_cancel_left, List.take_zero,
    List.drop_left, List.nil_append]

theorem buildMerged_tag_lb (a b : List Char) : ∀ ops cur t,
    t ∈ (buildMergedLoop a b cur ops).2 →
    cur ≤ t.2.1.1 ∧ t.2.1.1 ≤ t.2.1.2 := by
  intro ops
  induction ops with
  | nil =>
    intro cur t ht
    simp [buildMergedLoop] at ht
  | cons op rest ih =>
    obtain ⟨tag, i1, i2, j1, j2⟩ := op
    intro cur t ht
    cases tag with
    | equal =>
      have := ih (cur + (pySlice a i1 i2).length) t ht
      exact ⟨by omega, this.2⟩
    | del =>
      rcases List.mem_cons.mp ht with he | hm
      · rw [he]
        exact ⟨le_refl cur, Nat.le_add_right cur (pySlice a i1 i2).length⟩
      · have := ih (cur + (pySlice a i1 i2).length) t hm
        exact ⟨by omega, this.2⟩
    | ins =>
      rcases List.mem_cons.mp ht with he | hm
      · rw [he]
        exact ⟨le_refl cur, Nat.le_add_right cur (pySlice b j1 j2).length⟩
      · have := ih (cur + (pySlice b j1 j2).length) t hm
        exact ⟨by omega, this.2⟩
    | replace =>
      rcases List.mem_cons.mp ht with he | hm
      · rw [he]
        exact ⟨le_refl cur, Nat.le_add_right cur (pySlice a i1 i2).length⟩
      · rcases List.mem_cons.mp hm with he2 | hm2
        · rw [he2]
          exact ⟨Nat.le_add_right cur (pySlice a i1 i2).length,
            Nat.le_add_right (cur + (pySlice a i1 i2).length)
              (pySlice b j1 j2).length⟩
        · have := ih
            (cur + (pySlice a i1 i2).length + (pySlice b j1 j2).length) t hm2
          exact ⟨by omega, this.2⟩

theorem insSpansOf_mem : ∀ (l : List (MTag × (Nat × Nat) × (Int × Int)))
    (p : Nat × Nat), p ∈ insSpansOf l → ∃ t ∈ l, t.2.1 = p := by
  intro l
  induction l with
  | nil =>
    intro p hp
    simp [insSpansOf] at hp
  | cons t rest ih =>
    obtain ⟨tg, sp, jj⟩ := t
    intro p hp
    cases tg with
    | mins =>
      rcases List.mem_cons.mp hp with he | hm
      · exact ⟨(MTag.mins, sp, jj), List.mem_cons_self _ _, he.symm⟩
      · obtain ⟨t', ht', he'⟩ := ih p hm
        exact ⟨t', List.mem_cons_of_mem _ ht', he'⟩
    | mdel =>
      obtain ⟨t', ht', he'⟩ := ih p hp
      exact ⟨t', List.mem_cons_of_mem _ ht', he'⟩

theorem delSpansOf_mem : ∀ (l : List (MTag × (Nat × Nat) × (Int × Int)))
    (p : Nat × Nat), p ∈ delSpansOf l → ∃ t ∈ l, t.2.1 = p := by
  intro l
  induction l with
  | nil =>
    intro p hp
    simp [delSpansOf] at hp
  | cons t rest ih =>
    obtain ⟨tg, sp, jj⟩ := t
    intro p hp
    cases tg with
    | mdel =>
      rcases List.mem_cons.mp hp with he | hm
      · exact ⟨(MTag.mdel, sp, jj), List.mem_cons_self _ _, he.symm⟩
      · obtain ⟨t', ht', he'⟩ := ih p hm
        exact ⟨t', List.mem_cons_of_mem _ ht', he'⟩
    | mins =>
      obtain ⟨t', ht', he'⟩ := ih p hp
      exact ⟨t', List.mem_cons_of_mem _ ht', he'⟩

theorem insSpans_lb (a b : List Char) (ops : List Opcode) (cur : Nat) :
    ∀ p ∈ insSpansOf (buildMergedLoop a b cur ops).2,
      cur ≤ p.1 ∧ p.1 ≤ p.2 := by
  intro p hp
  obtain ⟨t, ht, he⟩ := insSpansOf_mem _ p hp
  have hlb := buildMerged_tag_lb a b ops cur t ht
  rw [he] at hlb
  exact hlb

theorem delSpans_lb (a b : List Char) (ops : List Opcode) (cur : Nat) :
    ∀ p ∈ delSpansOf (buildMergedLoop a b cur ops).2,
      cur ≤ p.1 ∧ p.1 ≤ p.2 := by
  intro p hp
  obtain ⟨t, ht, he⟩ := delSpansOf_mem _ p hp
  have hlb := buildMerged_tag_lb a b ops cur t ht
  rw [he] at hlb
  exact hlb

theorem buildMerged_dropIns (a b : List Char) : ∀ ops i j cur,
    OpsChain a b i j ops →
    dropSpans (buildMergedLoop a b cur ops).1 cur
        (insSpansOf (buildMergedLoop a b cur ops).2)
      = a.drop i := by
  intro ops
  induction ops with
  | nil =>
    intro i j cur h
    obtain ⟨h1, h2⟩ := h
    show ([] : List Char) = a.drop i
    rw [h1]
    exact (List.drop_length a).symm
  | cons op rest ih =>
    obtain ⟨tag, i1, i2, j1, j2⟩ := op
    intro i j cur h
    obtain ⟨hi1, hj1, hii, hjj, hia, hjb, heqS, hdelS, hinsS, hrest⟩ := h
    subst hi1
    subst hj1
    cases tag with
    | equal =>
      show dropSpans
          (pySlice a i1 i2
            ++ (buildMergedLoop a b (cur + (pySlice a i1 i2).length) rest).1)
          cur
          (insSpansOf
            (buildMergedLoop a b (cur + (pySlice a i1 i2).length) rest).2)
        = a.drop i1
      rw [dropSpans_ge _ _ _ _
          (insSpans_lb a b rest (cur + (pySlice a i1 i2).length)),
        ih i2 j2 (cur + (pySlice a i1 i2).length) hrest]
      exact (drop_eq_slice_append a i1 i2 hii).symm
    | del =>
      show dropSpans
          (pySlice a i1 i2
            ++ (buildMergedLoop a b (cur + (pySlice a i1 i2).length) rest).1)
          cur
          (insSpansOf
            (buildMergedLoop a b (cur + (pySlice a i1 i2).length) rest).2)
        = a.drop i1
      rw [dropSpans_ge _ _ _ _
          (insSpans_lb a b rest (cur + (pySlice a i1 i2).length)),
        ih i2 j2 (cur + (pySlice a i1 i2).length) hrest]
      exact (drop_eq_slice_append a i1 i2 hii).symm
    | ins =>
      have hi2 : i1 = i2 := hinsS rfl
      show dropSpans
          (pySlice b j1 j2
            ++ (buildMergedLoop a b (cur + (pySlice b j1 j2).length) rest).1)
          cur
          ((cur, cur + (pySlice b j1 j2).length)
            :: insSpansOf
              (buildMergedLoop a b (cur + (pySlice b j1 j2).length) rest).2)
        = a.drop i1
      rw [dropSpans_cover, ih i2 j2 (cur + (pySlice b j1 j2).length) hrest,
        hi2]
    | replace =>
      show dropSpans
          (pySlice a i1 i2
            ++ (pySlice b j1 j2
              ++ (buildMergedLoop a b
                  (cur + (pySlice a i1 i2).length
                    + (pySlice b j1 j2).length) rest).1))
          cur
          ((cur + (pySlice a i1 i2).length,
              cur + (pySlice a i1 i2).length + (pySlice b j1 j2).length)
            :: insSpansOf
              (buildMergedLoop a b
                (cur + (pySlice a i1 i2).length
                  + (pySlice b j1 j2).length) rest).2)
        = a.drop i1
      have hsp : ∀ p ∈ ((cur + (pySlice a i1 i2).length,
          cur + (pySlice a i1 i2).length + (pySlice b j1 j2).length)
            :: insSpansOf
              (buildMergedLoop a b
                (cur + (pySlice a i1 i2).length
                  + (pySlice b j1 j2).length) rest).2),
          cur + (pySlice a i1 i2).length ≤ p.1 ∧ p.1 ≤ p.2 := by
        intro p hp
        rcases List.mem_cons.mp hp with he | hm
        · rw [he]
          exact ⟨le_refl _, Nat.le_add_right _ _⟩
        · have := insSpans_lb a b rest
            (cur + (pySlice a i1 i2).length + (pySlice b j1 j2).length) p hm
          exact ⟨by omega, this.2⟩
      rw [dropSpans_ge _ _ _ _ hsp, dropSpans_cover,
        ih i2 j2 (cur + (pySlice a i1 i2).length + (pySlice b j1 j2).length)
          hrest]
      exact (drop_eq_slice_append a i1 i2 hii).symm

theorem buildMerged_dropDel (a b : List Char) : ∀ ops i j cur,
    OpsChain a b i j ops →
    dropSpans (buildMergedLoop a b cur ops).1 cur
        (delSpansOf (buildMergedLoop a b cur ops).2)
      = b.drop j := by
  intro ops
  induction ops with
  | nil =>
    intro i j cur h
    obtain ⟨h1, h2⟩ := h
    show ([] : List Char) = b.drop j
    rw [h2]
    exact (List.drop_length b).symm
  | cons op rest ih =>
    obtain ⟨tag, i1, i2, j1, j2⟩ := op
    intro i j cur h
    obtain ⟨hi1, hj1, hii, hjj, hia, hjb, heqS, hdelS, hinsS, hrest⟩ := h
    subst hi1
    subst hj1
    cases tag with
    | equal =>
      show dropSpans
          (pySlice a i1 i2
            ++ (buildMergedLoop a b (cur + (pySlice a i1 i2).length) rest).1)
          cur
          (delSpansOf
            (buildMergedLoop a b (cur + (pySlice a i1 i2).length) rest).2)
        = b.drop j1
      rw [dropSpans_ge _ _ _ _
          (delSpans_lb a b rest (cur + (pySlice a i1 i2).length)),
        ih i2 j2 (cur + (pySlice a i1 i2).length) hrest, heqS rfl]
      exact (drop_eq_slice_append b j1 j2 hjj).symm
    | del =>
      have hj2 : j1 = j2 := hdelS rfl
      show dropSpans
          (pySlice a i1 i2
            ++ (buildMergedLoop a b (cur + (pySlice a i1 i2).length) rest).1)
          cur
          ((cur, cur + (pySlice a i1 i2).length)
            :: delSpansOf
              (buildMergedLoop a b (cur + (pySlice a i1 i2).length) rest).2)
        = b.drop j1
      rw [dropSpans_cover, ih i2 j2 (cur + (pySlice a i1 i2).length) hrest,
        hj2]
    | ins =>
      show dropSpans
          (pySlice b j1 j2
            ++ (buildMergedLoop a b (cur + (pySlice b j1 j2).length) rest).1)
          cur
          (delSpansOf
            (buildMergedLoop a b (cur + (pySlice b j1 j2).length) rest).2)
        = b.drop j1
      rw [dropSpans_ge _ _ _ _
          (delSpans_lb a b rest (cur + (pySlice b j1 j2).length)),
        ih i2 j2 (cur + (pySlice b j1 j2).length) hrest]
      exact (drop_eq_slice_append b j1 j2 hjj).symm
    | replace =>
      show dropSpans
          (pySlice a i1 i2
            ++ (pySlice b j1 j2
              ++ (buildMergedLoop a b
                  (cur + (pySlice a i1 i2).length
                    + (pySlice b j1 j2).length) rest).1))
          cur
          ((cur, cur + (pySlice a i1 i2).length)
            :: delSpansOf
              (buildMergedLoop a b
                (cur + (pySlice a i1 i2).length
                  + (pySlice b j1 j2).length) rest).2)
        = b.drop j1
      rw [dropSpans_cover,
        dropSpans_ge _ _ _ _
          (delSpans_lb a b rest
            (cur + (pySlice a i1 i2).length + (pySlice b j1 j2).length)),
        ih i2 j2 (cur + (pySlice a i1 i2).length + (pySlice b j1 j2).length)
          hrest]
      exact (drop_eq_slice_append b j1 j2 hjj).symm

/-- C9: for every pair of texts, the merged buffer built from the
opcodes of `align(a, b)` satisfies the two-sided round-trip — deleting
the insertion-tagged spans recovers `a`, and deleting the
deletion-tagged spans recovers `b`. -/
theorem spec_C9_roundtrip (a b : List Char) :
    dropSpans (build_merged a b).1 0 (insSpansOf (build_merged a b).2) = a
      ∧ dropSpans (build_merged a b).1 0 (delSpansOf (build_merged a b).2)
        = b := by
  constructor
  · have h := buildMerged_dropIns a b (get_opcodes a b) 0 0 0
      (get_opcodes_chain a b)
    rw [List.drop_zero] at h
    exact h
  · have h := buildMerged_dropDel a b (get_opcodes a b) 0 0 0
      (get_opcodes_chain a b)
    rw [List.drop_zero] at h
    exact h

/- Intraline Refiner (claim C2). -/

/-- The global intraline guard threshold (`MAX_INTRALINE_LINES`). -/
def MAX_INTRALINE_LINES : Nat := 300

/-- The per-line intraline guard threshold
(`MAX_LINE_LEN_FOR_INTRALINE`). -/
def MAX_LINE_LEN_FOR_INTRALINE : Nat := 2000

/-- Python line-break characters recognised by `str.splitlines`. -/
def isLineBreakChar (c : Char) : Bool :=
  c = '\n' || c = '\r' || c = '\x0b' || c = '\x0c' || c = '\x1c'
    || c = '\x1d' || c = '\x1e' || c = '\u0085' || c = '\u2028'
    || c = '\u2029'

/-- Worker for `str.splitlines(keepends=True)`: `acc` holds the current
line's characters in reverse. -/
def slkAux : List Char → List Char → List (List Char)
  | acc, [] => if acc = [] then [] else [acc.reverse]
  | acc, '\r' :: '\n' :: rest => (acc.reverse ++ ['\r', '\n']) :: slkAux [] rest
  | acc, c :: rest =>
    if isLineBreakChar c then (acc.reverse ++ [c]) :: slkAux [] rest
    else slkAux (c :: acc) rest

/-- `s.splitlines(keepends=True)`. -/
def splitlinesKeep (s : List Char) : List (List Char) :=
  slkAux [] s

/-- The line-start offset table (`orig_offsets` / `mod_offsets`). -/
def lineOffsetsAux : Nat → List (List Char) → List Nat
  | _, [] => []
  | acc, l :: rest => acc :: lineOffsetsAux (acc + l.length) rest

/-- Reverse scan of `char_offset_to_line`: try indices
`i‑1, i‑2, …, 0` and return the first whose offset is `≤ offset`,
defaulting to `0`. -/
def cotlGo (offset : Nat) (offsets : List Nat) : Nat → Nat
  | 0 => 0
  | i + 1 => if offsets.getD i 0 ≤ offset then i else cotlGo offset offsets i

/-- `char_offset_to_line(offset, line_offsets, lines)` (the `lines`
argument is unused in the source). -/
def char_offset_to_line (offset : Nat) (offsets : List Nat) : Nat :=
  cotlGo offset offsets offsets.length

/-- The inner loop of the `replace` arm of the pre-scan
(`for i in range(max_lines): ...`): walks the old/new line lists in
step, pairing lines present on both sides and recording an insert span
for a line present only on the new side.  Returns
`(changed_line_pairs, ins_spans)` contributed by this opcode. -/
def replaceScan (oo mo : List Nat) :
    Nat → List (List Char) → List (List Char) → Nat → Nat →
    List (Nat × Nat) × List (Nat × Nat)
  | 0, _, _, _, _ => ([], [])
  | m + 1, ols, nls, old_cum, new_cum =>
    let ol := ols.headD []
    let nl := nls.headD []
    let rest := replaceScan oo mo m ols.tail nls.tail
      (old_cum + ol.length) (new_cum + nl.length)
    if ol ≠ [] ∧ nl ≠ [] then
      ((char_offset_to_line old_cum oo, char_offset_to_line new_cum mo)
          :: rest.1, rest.2)
    else if nl ≠ [] then
      (rest.1, (new_cum, new_cum + nl.length) :: rest.2)
    else
      rest

/-- The pre-scan over the whole-document opcodes: accumulates
`(total_changed_lines, changed_line_pairs, ins_spans)`. -/
def preScan (a b : List Char) (oo mo : List Nat) :
    List Opcode → Nat × List (Nat × Nat) × List (Nat × Nat)
  | [] => (0, [], [])
  | (OpTag.equal, _, _, _, _) :: rest => preScan a b oo mo rest
  | (OpTag.del, a1, a2, b1, b2) :: rest =>
    let r := preScan a b oo mo rest
    (max (splitlinesKeep (pySlice a a1 a2)).length
        (splitlinesKeep (pySlice b b1 b2)).length + r.1, r.2.1, r.2.2)
  | (OpTag.ins, a1, a2, b1, b2) :: rest =>
    let r := preScan a b oo mo rest
    (max (splitlinesKeep (pySlice a a1 a2)).length
        (splitlinesKeep (pySlice b b1 b2)).length + r.1,
      r.2.1, (b1, b2) :: r.2.2)
  | (OpTag.replace, a1, a2, b1, b2) :: rest =>
    let old_lines := splitlinesKeep (pySlice a a1 a2)
    let new_lines := splitlinesKeep (pySlice b b1 b2)
    let rs := replaceScan oo mo (max old_lines.length new_lines.length)
      old_lines new_lines a1 b1
    let r := preScan a b oo mo rest
    (max old_lines.length new_lines.length + r.1,
      rs.1 ++ r.2.1, rs.2 ++ r.2.2)

/-- Span accumulation over one line pair's opcodes (the innermost loop
of the refinement branch). -/
def lineSpans (base_old base_new : Nat) :
    List Opcode → List (Nat × Nat) × List (Nat × Nat)
  | [] => ([], [])
  | (OpTag.equal, _, _, _, _) :: rest => lineSpans base_old base_new rest
  | (OpTag.del, la1, la2, _, _) :: rest =>
    let r := lineSpans base_old base_new rest
    ((base_old + la1, base_old + la2) :: r.1, r.2)
  | (OpTag.ins, _, _, lb1, lb2) :: rest =>
    let r := lineSpans base_old base_new rest
    (r.1, (base_new + lb1, base_new + lb2) :: r.2)
  | (OpTag.replace, la1, la2, lb1, lb2) :: rest =>
    let r := lineSpans base_old base_new rest
    ((base_old + la1, base_old + la2) :: r.1,
      (base_new + lb1, base_new + lb2) :: r.2)

/-- Refinement of one changed line pair: skip over-long lines (Guard 2,
tagging the whole new line as inserted), otherwise align the line pair
and translate the local opcodes by the line-start offsets. -/
def refinePair (orig_lines mod_lines : List (List Char)) (oo mo : List Nat)
    (p : Nat × Nat) : List (Nat × Nat) × List (Nat × Nat) :=
  let ol := orig_lines.getD p.1 []
  let nl := mod_lines.getD p.2 []
  if MAX_LINE_LEN_FOR_INTRALINE < ol.length
      ∨ MAX_LINE_LEN_FOR_INTRALINE < nl.length then
    ([], [(mo.getD p.2 0, mo.getD p.2 0 + nl.length)])
  else
    lineSpans (oo.getD p.1 0) (mo.getD p.2 0) (get_opcodes ol nl)

/-- The refinement loop over all changed line pairs. -/
def refineLoop (orig_lines mod_lines : List (List Char))
    (oo mo : List Nat) : List (Nat × Nat) →
    List (Nat × Nat) × List (Nat × Nat)
  | [] => ([], [])
  | p :: rest =>
    ((refinePair orig_lines mod_lines oo mo p).1
        ++ (refineLoop orig_lines mod_lines oo mo rest).1,
      (refinePair orig_lines mod_lines oo mo p).2
        ++ (refineLoop orig_lines mod_lines oo mo rest).2)

/-- `ApplyWorker._compute_intraline_spans original modified tag_ranges`
with the polled stop flag modelled as the fixed boolean `stop`.
Returns `(del_spans, ins_spans)`. -/
def compute_intraline_spans (original modified : List Char) (stop : Bool)
    (tag_ranges : List (MTag × (Nat × Nat) × (Int × Int))) :
    List (Nat × Nat) × List (Nat × Nat) :=
  if MAX_INTRALINE_LINES
      < (preScan original modified
          (lineOffsetsAux 0 (splitlinesKeep original))
          (lineOffsetsAux 0 (splitlinesKeep modified))
          (get_opcodes original modified)).1
    ∨ stop = true then
    (merge_ranges (delSpansOf tag_ranges),
      merge_ranges (preScan original modified
          (lineOffsetsAux 0 (splitlinesKeep original))
          (lineOffsetsAux 0 (splitlinesKeep modified))
          (get_opcodes original modified)).2.2)
  else
    (merge_ranges
        ((refineLoop (splitlinesKeep original) (splitlinesKeep modified)
            (lineOffsetsAux 0 (splitlinesKeep original))
            (lineOffsetsAux 0 (splitlinesKeep modified))
            (preScan original modified
              (lineOffsetsAux 0 (splitlinesKeep original))
              (lineOffsetsAux 0 (splitlinesKeep modified))
              (get_opcodes original modified)).2.1).1
          ++ delSpansOf tag_ranges),
      merge_ranges
        ((preScan original modified
            (lineOffsetsAux 0 (splitlinesKeep original))
            (lineOffsetsAux 0 (splitlinesKeep modified))
            (get_opcodes original modified)).2.2
          ++ (refineLoop (splitlinesKeep original) (splitlinesKeep modified)
            (lineOffsetsAux 0 (splitlinesKeep original))
            (lineOffsetsAux 0 (splitlinesKeep modified))
            (preScan original modified
              (lineOffsetsAux 0 (splitlinesKeep original))
              (lineOffsetsAux 0 (splitlinesKeep modified))
              (get_opcodes original modified)).2.1).2))

/-- The `b`-side ranges of the insertion-tagged entries ("the coarse
insert spans" of the spec). -/
def specCoarseInsSpans :
    List (MTag × (Nat × Nat) × (Int × Int)) → List (Nat × Nat)
  | [] => []
  | (MTag.mins, _, (j1, j2)) :: rest =>
    (j1.toNat, j2.toNat) :: specCoarseInsSpans rest
  | (MTag.mdel, _, _) :: rest => specCoarseInsSpans rest

/-- Spec-following definition of what Guard 1 is claimed to return:
the coarse delete spans and the coarse insert spans (the `b`-side
ranges of the insertion tags), both unmodified. -/
def specGuardUnmodified
    (tag_ranges : List (MTag × (Nat × Nat) × (Int × Int))) :
    List (Nat × Nat) × List (Nat × Nat) :=
  (delSpansOf tag_ranges, specCoarseInsSpans tag_ranges)

/-- C2 (amended): when the pre-scan total exceeds
`MAX_INTRALINE_LINES` (or a stop was requested), no per-line-pair
alignment is performed; the delete side is the coarse delete spans of
`tag_ranges` coalesced by `merge_ranges`, and the insert side is the
coalesced pre-scan insert spans (whole insert-opcode ranges plus the
unpaired new lines of replace opcodes) — not the coarse insert spans
unmodified. -/
theorem spec_C2_guard (original modified : List Char) (stop : Bool)
    (tag_ranges : List (MTag × (Nat × Nat) × (Int × Int)))
    (h : MAX_INTRALINE_LINES
        < (preScan original modified
            (lineOffsetsAux 0 (splitlinesKeep original))
            (lineOffsetsAux 0 (splitlinesKeep modified))
            (get_opcodes original modified)).1
      ∨ stop = true) :
    compute_intraline_spans original modified stop tag_ranges
      = (merge_ranges (delSpansOf tag_ranges),
        merge_ranges (preScan original modified
            (lineOffsetsAux 0 (splitlinesKeep original))
            (lineOffsetsAux 0 (splitlinesKeep modified))
            (get_opcodes original modified)).2.2) := by
  unfold compute_intraline_spans
  rw [if_pos h]


/-- The Guard-1 scenario used for C2: 302 one-character original lines
replaced by a single-character text, so the pre-scan total is
302 > 300. -/
def c2orig : List Char := List.replicate 302 '\n'

def c2mod : List Char := ['b']

def c2tags : List (MTag × (Nat × Nat) × (Int × Int)) :=
  (build_merged c2orig c2mod).2

set_option maxRecDepth 40000

set_option maxHeartbeats 2000000

theorem c2_flm : find_longest_match c2orig c2mod 0 302 0 1 = (0, 0, 0) := by
  have hok := find_longest_match_ok c2orig c2mod 0 302 0 1
  rcases hT : find_longest_match c2orig c2mod 0 302 0 1 with ⟨bi, bj, k⟩
  rw [hT] at hok
  obtain ⟨hor, hpt⟩ := hok
  rcases hor with ⟨e1, e2, e3⟩ | ⟨f1, f2, f3, f4, f5⟩
  · have e1' : bi = 0 := e1
    have e2' : bj = 0 := e2
    have e3' : k = 0 := e3
    rw [e1', e2', e3']
  · have f2' : bi + k ≤ 302 := f2
    have f4' : bj + k ≤ 1 := f4
    have f5' : 1 ≤ k := f5
    have hbj : bj = 0 := by omega
    have hz := hpt 0 (by omega)
    rw [hbj] at hz
    have hz' : c2orig.getD (bi + 0) ' ' = 'b' := hz
    have hlen : c2orig.length = 302 := by decide
    have hmem : c2orig.getD (bi + 0) ' ' ∈ c2orig := by
      rw [List.getD_eq_getElem c2orig ' ' (show bi + 0 < c2orig.length by omega)]
      exact List.getElem_mem _
    rw [hz'] at hmem
    exact absurd hmem (by decide)

theorem c2_blocks : blocksRec c2orig c2mod 0 302 0 1 = [] := by
  unfold blocksRec
  rw [c2_flm]
  rfl

theorem c2_opcodes :
    get_opcodes c2orig c2mod = [(OpTag.replace, 0, 302, 0, 1)] := by
  unfold get_opcodes get_matching_blocks
  rw [show c2orig.length = 302 from by decide,
    show c2mod.length = 1 from rfl, c2_blocks]
  rfl

theorem c2_preScan :
    preScan c2orig c2mod
        (lineOffsetsAux 0 (splitlinesKeep c2orig))
        (lineOffsetsAux 0 (splitlinesKeep c2mod))
        [(OpTag.replace, 0, 302, 0, 1)]
      = (302, [(0, 0)], []) := by
  decide

theorem c2_total :
    (preScan c2orig c2mod
        (lineOffsetsAux 0 (splitlinesKeep c2orig))
        (lineOffsetsAux 0 (splitlinesKeep c2mod))
        (get_opcodes c2orig c2mod)).1 = 302 := by
  rw [c2_opcodes, c2_preScan]

/-- Witness for the amended C2 at the Guard-1 scenario. -/
theorem spec_C2_witness :
    (MAX_INTRALINE_LINES
        < (preScan c2orig c2mod
            (lineOffsetsAux 0 (splitlinesKeep c2orig))
            (lineOffsetsAux 0 (splitlinesKeep c2mod))
            (get_opcodes c2orig c2mod)).1
      ∨ false = true)
    ∧ compute_intraline_spans c2orig c2mod false c2tags
      = (merge_ranges (delSpansOf c2tags),
        merge_ranges (preScan c2orig c2mod
            (lineOffsetsAux 0 (splitlinesKeep c2orig))
            (lineOffsetsAux 0 (splitlinesKeep c2mod))
            (get_opcodes c2orig c2mod)).2.2) :=
  ⟨Or.inl (by rw [c2_total]; decide),
    spec_C2_guard c2orig c2mod false c2tags
      (Or.inl (by rw [c2_total]; decide))⟩

theorem c2tags_eval :
    c2tags = [(MTag.mdel, (0, 302), (-1, -1)),
      (MTag.mins, (302, 303), ((0 : Int), (1 : Int)))] := by
  unfold c2tags build_merged
  rw [c2_opcodes]
  decide

theorem merge_ranges_nil : merge_ranges ([] : List (Nat × Nat)) = [] := by
  unfold merge_ranges
  rw [List.mergeSort_nil]

/-- Counterexample to C2 as stated: in the Guard-1 scenario the guard
fires, yet the returned spans are not the coarse delete/insert spans
unmodified — the insert side comes back empty, omitting the coarse
insert span of the new line paired with a replaced original line. -/
theorem spec_C2_counterexample :
    compute_intraline_spans c2orig c2mod false c2tags
      ≠ specGuardUnmodified c2tags := by
  intro heq
  unfold compute_intraline_spans at heq
  rw [c2_opcodes, c2_preScan] at heq
  rw [if_pos (Or.inl (by decide))] at heq
  rw [c2tags_eval] at heq
  have h2 : merge_ranges ([] : List (Nat × Nat))
      = (specGuardUnmodified [(MTag.mdel, (0, 302), (-1, -1)),
          (MTag.mins, (302, 303), ((0 : Int), (1 : Int)))]).2 :=
    congrArg Prod.snd heq
  rw [merge_ranges_nil] at h2
  exact absurd h2 (by decide)

end Ashmolean
